import Mathlib

/-
Verification of the pngutil package: a PNG metadata rewriter built from
bounded range views (skipReadSeeker / skipReader) over a shared seekable
source, chained by multiReadSeeker (or io.MultiReader in the earlier
implementation).

Bytes are modelled as Nat, offsets as Int (Go int64), an io.ReadSeeker
as a byte list plus a position (the observable behaviour of bytes.Reader
and os.File under the operations this package performs).  Recursive loops
carry an explicit fuel argument; every wrapper supplies fuel that is
provably sufficient, so definitions stay executable by kernel reduction.
-/

namespace Pngutil

deriving instance DecidableEq for Except

/-- PNG file signature bytes (variable header in pngutil.go). -/
def headerB : List Nat := [137, 80, 78, 71, 13, 10, 26, 10]

/-- First eight bytes of the IHDR chunk (variable ihdr in pngutil.go). -/
def ihdrB : List Nat := [0, 0, 0, 13, 73, 72, 68, 82]

/-- The full twelve-byte IEND chunk (variable iend in pngutil.go). -/
def iendB : List Nat := [0, 0, 0, 0, 73, 69, 78, 68, 174, 66, 96, 130]

/-- Chunk type tag iTXt. -/
def itxtB : List Nat := [105, 84, 88, 116]

/-- Offset at which the IHDR chunk ends (const ihdrEnd). -/
def ihdrEnd : Int := 33

/-- The fixed retain set: IHDR, PLTE, IDAT, IEND (variable retain). -/
def retain (c : List Nat) : Bool :=
  c == [73, 72, 68, 82] || c == [80, 76, 84, 69] ||
  c == [73, 68, 65, 84] || c == [73, 69, 78, 68]

/-- Slice d[a : a+n] of a byte list. -/
def sliceL (d : List Nat) (a n : Nat) : List Nat := (d.drop a).take n

/-- Bytes of a source covered by an absolute range [a, b). -/
def extI (d : List Nat) (a b : Int) : List Nat := (d.drop a.toNat).take (b - a).toNat

/-- binary.BigEndian.Uint32 of the first four bytes. -/
def be32val (p : List Nat) : Nat :=
  p.getD 0 0 * 16777216 + p.getD 1 0 * 65536 + p.getD 2 0 * 256 + p.getD 3 0

/-- binary.BigEndian.PutUint32 (function int32ToBytes in the source). -/
def be32 (n : Nat) : List Nat :=
  [n / 16777216 % 256, n / 65536 % 256, n / 256 % 256, n % 256]

/-- One bit step of the reflected CRC-32 algorithm with polynomial 0xEDB88320. -/
def crcBit (c : Nat) : Nat := if c % 2 = 1 then (c / 2) ^^^ 0xEDB88320 else c / 2

/-- Absorb one byte into a CRC-32 accumulator. -/
def crcByte (c b : Nat) : Nat := crcBit^[8] (c ^^^ b)

/-- CRC-32/IEEE of a byte list (hash/crc32 NewIEEE, Write, Sum32). -/
def crc32 (bs : List Nat) : Nat := 0xFFFFFFFF ^^^ bs.foldl crcByte 0xFFFFFFFF

/-- An underlying io.ReadSeeker: immutable bytes plus a seek position.
This is the observable state of bytes.Reader and of the os.File handle
passed to ReplaceMeta. -/
structure RS where
  data : List Nat
  pos : Int
deriving DecidableEq, Repr, Inhabited

/-- bytes.Reader.Read: end-of-data when position is at or past the end,
otherwise up to pLen bytes from the current position.  Returns the bytes
read, an EOF flag and the new state. -/
def rsRead (r : RS) (pLen : Nat) : List Nat × Bool × RS :=
  if (r.data.length : Int) ≤ r.pos then ([], true, r)
  else
    let bs := (r.data.drop r.pos.toNat).take pLen
    (bs, false, { r with pos := r.pos + bs.length })

/-- bytes.Reader.Seek to an absolute position: negative positions fail,
positions past the end are allowed. -/
def rsSeek (r : RS) (target : Int) : Except Unit Int × RS :=
  if target < 0 then (.error (), r) else (.ok target, { r with pos := target })

/-- Seek whence values; other models an invalid whence integer. -/
inductive Whence
  | start
  | cur
  | fromEnd
  | other
deriving DecidableEq, Repr

/-- skipReadSeeker: a bounded view [start, endPos) into a shared source.
The source itself is held externally in a list; src is its index, which
models the rs pointer field.  offset holds the cursor; after any Seek it
is an absolute position in the source (the code compares it against the
absolute endPos). -/
structure SRS where
  name : String := ""
  src : Nat := 0
  start : Int := 0
  endPos : Int := 0
  offset : Int := 0
deriving DecidableEq, Repr, Inhabited

/-- skipReadSeeker seek errors: the lower-bound check, or a failure of the
underlying Seek. -/
inductive SErr
  | beforeStart
  | underlying
deriving DecidableEq, Repr

/-- skipReadSeeker.Read: EOF once offset reaches endPos, otherwise read at
most endPos - offset bytes from the underlying source at its current
position (no repositioning), and advance offset by the count read. -/
def srsRead (srcs : List RS) (s : SRS) (pLen : Nat) :
    List Nat × Bool × SRS × List RS :=
  if s.endPos ≤ s.offset then ([], true, s, srcs)
  else
    let toRead : Int := min (s.endPos - s.offset) (pLen : Int)
    let r := srcs.getD s.src default
    let (bs, eof, r2) := rsRead r toRead.toNat
    (bs, eof, { s with offset := s.offset + bs.length }, srcs.set s.src r2)

/-- The offset resolution performed by skipReadSeeker.Seek's switch. -/
def srsResolve (s : SRS) (off : Int) (w : Whence) : Int :=
  match w with
  | .start => off + s.start
  | .cur => off + s.start + s.offset
  | .fromEnd => s.endPos + off
  | .other => off

/-- skipReadSeeker.Seek: resolve the offset, fail if it is below start,
otherwise seek the underlying source to the resolved absolute position and
record it in offset (the code stores it even if the underlying seek
failed). -/
def srsSeek (srcs : List RS) (s : SRS) (off : Int) (w : Whence) :
    Except SErr Int × SRS × List RS :=
  let resolved := srsResolve s off w
  if resolved < s.start then (.error .beforeStart, s, srcs)
  else
    let r := srcs.getD s.src default
    let (res, r2) := rsSeek r resolved
    let s2 := { s with offset := resolved }
    match res with
    | .error _ => (.error .underlying, s2, srcs.set s.src r2)
    | .ok _ => (.ok resolved, s2, srcs.set s.src r2)

/-- multiReadSeeker: a chain of skipReadSeekers with cached sizes. -/
structure MRS where
  overall : Int := 0
  rsIdx : Nat := 0
  readSeekers : List SRS := []
  sizes : List Int := []
  size : Int := 0
deriving DecidableEq, Repr, Inhabited

/-- multiReadSeeker errors. -/
inductive MErr
  | invalidWhence
  | outOfBounds
  | inner (e : SErr)
deriving DecidableEq, Repr

/-- The loop body of multiReadSeeker.Read: fill a pLen-byte buffer from the
current readseeker, advancing to the next one (seeking it to its start) on
EOF, and returning EOF when the last readseeker is exhausted.  read and acc
accumulate the count and bytes so far; fuel bounds the iteration count and
none models both fuel exhaustion and an out-of-range readseeker index
(which would panic in Go). -/
def mrsLoop (fuel : Nat) (m : MRS) (srcs : List RS) (pLen read : Nat)
    (acc : List Nat) : Option (Nat × List Nat × Bool × MRS × List RS) :=
  match fuel with
  | 0 => none
  | fuel + 1 =>
    if read = pLen then some (read, acc, false, m, srcs)
    else if m.readSeekers.length ≤ m.rsIdx then none
    else
      let s := m.readSeekers.getD m.rsIdx default
      let (bs, eof, s2, srcs2) := srsRead srcs s (pLen - read)
      let m2 := { m with readSeekers := m.readSeekers.set m.rsIdx s2,
                         overall := m.overall + bs.length }
      let read2 := read + bs.length
      let acc2 := acc ++ bs
      if eof then
        if m2.rsIdx = m2.readSeekers.length - 1 then
          some (read2, acc2, true, m2, srcs2)
        else
          let m3 := { m2 with rsIdx := m2.rsIdx + 1 }
          let s3 := m3.readSeekers.getD m3.rsIdx default
          let (_, s4, srcs3) := srsSeek srcs2 s3 0 .start
          let m4 := { m3 with readSeekers := m3.readSeekers.set m3.rsIdx s4 }
          mrsLoop fuel m4 srcs3 pLen read2 acc2
      else
        mrsLoop fuel m2 srcs2 pLen read2 acc2

/-- multiReadSeeker.Read with a buffer of pLen bytes, with fuel sufficient
for any state (each iteration reads a byte or advances the index). -/
def mrsRead (m : MRS) (srcs : List RS) (pLen : Nat) :
    Option (Nat × List Nat × Bool × MRS × List RS) :=
  mrsLoop ((pLen + 1) * (m.readSeekers.length + 1) + 1) m srcs pLen 0 []

/-- The linear scan of multiReadSeeker.Seek over the cached sizes: find the
range containing the resolved offset, returning its index and the offset
relative to that range. -/
def seekFind (sizes : List Int) (off total : Int) (i : Nat) : Option (Nat × Int) :=
  match sizes with
  | [] => none
  | s :: rest =>
    if total ≤ off ∧ off < total + s then some (i, off - total)
    else seekFind rest off (total + s) (i + 1)

/-- The offset resolution performed by multiReadSeeker.Seek's switch. -/
def mrsResolve (m : MRS) (off : Int) (w : Whence) : Int :=
  match w with
  | .start => off
  | .cur => off + m.overall
  | .fromEnd => m.size + off
  | .other => off

/-- multiReadSeeker.Seek: resolve the offset, locate the owning range by
linear scan, seek that range to the offset relative to its start, update
rsIdx and overall.  An invalid whence or an offset outside every range
fails. -/
def mrsSeek (m : MRS) (srcs : List RS) (off : Int) (w : Whence) :
    Except MErr Int × MRS × List RS :=
  match w with
  | .other => (.error .invalidWhence, m, srcs)
  | _ =>
    let offR := mrsResolve m off w
    match seekFind m.sizes offR 0 0 with
    | none => (.error .outOfBounds, m, srcs)
    | some (i, rsOff) =>
      let m2 := { m with rsIdx := i }
      let s := m2.readSeekers.getD i default
      let (res, s2, srcs2) := srsSeek srcs s rsOff .start
      let m3 := { m2 with readSeekers := m2.readSeekers.set i s2 }
      match res with
      | .error e => (.error (.inner e), m3, srcs2)
      | .ok _ => (.ok offR, { m3 with overall := offR }, srcs2)

/-- newMultiReadSeeker: compute the cached sizes and total size, then seek
the whole chain to offset zero so all constituents are positioned. -/
def newMultiReadSeeker (readers : List SRS) (srcs : List RS) :
    Except MErr (MRS × List RS) :=
  let sizes := readers.map (fun s => s.endPos - s.start)
  let size := sizes.foldl (fun a b => a + b) 0
  let m : MRS := { overall := 0, rsIdx := 0, readSeekers := readers,
                   sizes := sizes, size := size }
  match mrsSeek m srcs 0 .start with
  | (.error e, _, _) => .error e
  | (.ok _, m2, srcs2) => .ok (m2, srcs2)

/-- Drain loop: read 64 bytes at a time (as WriteFile does) until EOF,
collecting everything read. -/
def drainLoop (fuel : Nat) (m : MRS) (srcs : List RS) (acc : List Nat) :
    Option (List Nat) :=
  match fuel with
  | 0 => none
  | fuel + 1 =>
    match mrsRead m srcs 64 with
    | none => none
    | some (_, bs, eof, m2, srcs2) =>
      if eof then some (acc ++ bs) else drainLoop fuel m2 srcs2 (acc ++ bs)

/-- Drain a multiReadSeeker to end of data. -/
def mrsDrain (m : MRS) (srcs : List RS) : Option (List Nat) :=
  drainLoop (m.size.toNat + 2) m srcs []

/-
Metadata encoding.  A metadata mapping is modelled as an association list
of (keyword bytes, text bytes) whose order is the iteration order of the
Go map.
-/

/-- Metadata entries: keyword bytes and text bytes. -/
abbrev Metadata := List (List Nat × List Nat)

/-- Overwrite l[o : o + xs.length] with xs (the Go copy / PutUint32 calls,
which always fit inside the buffer here). -/
def writeAt (l : List Nat) (o : Nat) (xs : List Nat) : List Nat :=
  l.take o ++ xs ++ l.drop (o + xs.length)

/-- The pre-calculated length of the iTXt chunks: 4 length + 4 type +
keyword + 5 gap + text + 4 CRC per entry. -/
def itxtLenOf (md : Metadata) : Nat :=
  md.foldl (fun a kv => a + 4 + 4 + kv.1.length + 5 + kv.2.length + 4) 0

/-- One iteration of the encoding loop in ReplaceMeta: write the chunk
type, keyword and text into the zero-initialised buffer (the five gap
bytes are skipped, left zero), backpatch the big-endian length, then
append the CRC over type + keyword + gap + text as read back from the
buffer. -/
def encodeStep (st : List Nat × Nat) (kv : List Nat × List Nat) : List Nat × Nat :=
  let bb := st.1
  let start := st.2
  let i1 := start + 4
  let bb1 := writeAt bb i1 itxtB
  let i2 := i1 + 4
  let bb2 := writeAt bb1 i2 kv.1
  let i3 := i2 + kv.1.length
  let i4 := i3 + 5
  let bb3 := writeAt bb2 i4 kv.2
  let i5 := i4 + kv.2.length
  let length := (i5 - (start + 8)) % 4294967296
  let bb4 := writeAt bb3 start (be32 length)
  let crc := crc32 (sliceL bb4 (start + 4) (4 + length))
  let bb5 := writeAt bb4 i5 (be32 crc)
  (bb5, i5 + 4)

/-- The metadata blob built by ReplaceMeta: run the encoding loop over a
zeroed buffer of itxtLen + 8 bytes and drop the final 8 scratch bytes
(bb[0 : len(bb)-8]).  The scratch bytes are only ever used as the chunk
header read buffer of the scan, which is modelled separately. -/
def encodeMeta (md : Metadata) : List Nat :=
  let n := itxtLenOf md
  (md.foldl encodeStep (List.replicate (n + 8) 0, 0)).1.take n

/-- The chunk record an entry should produce, following the specified
layout: big-endian length of keyword + 5-byte gap + text, the iTXt tag,
keyword, five zero bytes, text, and a big-endian CRC-32 over the tag and
the keyword + gap + text payload. -/
def specRecord (kv : List Nat × List Nat) : List Nat :=
  be32 (kv.1.length + 5 + kv.2.length) ++ itxtB ++ kv.1 ++
    List.replicate 5 0 ++ kv.2 ++
    be32 (crc32 (itxtB ++ kv.1 ++ List.replicate 5 0 ++ kv.2))

/-
Assert (the structural validator).  Underlying reads and seeks may fail:
the fault schedule lists, per primitive operation in program order,
whether that operation reports an I/O error.  Operation indices:
0 capture Seek(0, Current); 1 Seek(0, Start); 2 first Read;
3 Seek(-12, End); 4 second Read; 5 the deferred restoring Seek.
-/

/-- Errors Assert's body can produce before the deferred restore runs. -/
inductive ABody
  | ioFail (op : Nat)
  | headerMissing
  | iendMissing
deriving DecidableEq, Repr

/-- Errors surfaced by Assert.  restoreFailed carries the error of the
body, if any, matching the fmt.Errorf wrap in the deferred function. -/
inductive AErr
  | body (e : ABody)
  | restoreFailed (prev : Option ABody)
deriving DecidableEq, Repr

/-- Whether operation k of the schedule fails. -/
def opFails (faults : List Bool) (k : Nat) : Bool := faults.getD k false

/-- The error of an Except result, if any. -/
def exErr (r : Except ABody Unit) : Option ABody :=
  match r with
  | .error e => some e
  | .ok _ => none

/-- The body of Assert between the position capture and the deferred
restore: seek to 0, read and compare 16 bytes against signature + IHDR
opening, seek to 12 before the end, read into the same buffer (tolerating
EOF) and compare its first 12 bytes against the IEND chunk. -/
def assertBody (r : RS) (faults : List Bool) : Except ABody Unit × RS :=
  if opFails faults 1 then (.error (.ioFail 1), r)
  else if opFails faults 2 then (.error (.ioFail 2), { r with pos := 0 })
  else
    match rsRead { r with pos := 0 } 16 with
    | (b1, eof1, r2) =>
      if eof1 then (.error (.ioFail 2), r2)
      else
        let p := (b1 ++ List.replicate 16 0).take 16
        if p ≠ headerB ++ ihdrB then (.error .headerMissing, r2)
        else if opFails faults 3 ∨ (r2.data.length : Int) - 12 < 0 then
          (.error (.ioFail 3), r2)
        else if opFails faults 4 then
          (.error (.ioFail 4), { r2 with pos := (r2.data.length : Int) - 12 })
        else
          match rsRead { r2 with pos := (r2.data.length : Int) - 12 } 16 with
          | (b2, _, r4) =>
            let p2 := (b2 ++ p.drop b2.length).take 16
            if p2.take 12 ≠ iendB then (.error .iendMissing, r4)
            else (.ok (), r4)

/-- Assert: capture the current offset, run the checks, and restore the
offset in a deferred seek on every path after the capture succeeded.  If
the restoring seek fails the returned error wraps whatever error the body
produced. -/
def assertGo (r : RS) (faults : List Bool) : Except AErr Unit × RS :=
  if opFails faults 0 then (.error (.body (.ioFail 0)), r)
  else
    let res := assertBody r faults
    if opFails faults 5 ∨ r.pos < 0 then (.error (.restoreFailed (exErr res.1)), res.2)
    else (res.1.mapError .body, { res.2 with pos := r.pos })

/-
ReplaceMeta, the multiReadSeeker implementation (the newer source file).
-/

/-- Errors surfaced by ReplaceMeta. -/
inductive RErr
  | fromAssert (e : AErr)
  | shortChunkHeader
  | seekFail
  | chainSeek (e : MErr)
  | fuelOut
deriving DecidableEq, Repr

/-- The chunk scan loop of the multiReadSeeker ReplaceMeta: read the next
8-byte chunk header at the scan position; EOF ends the scan, a short read
is an error.  A retained chunk either extends the end of the last reader
to the current header position (when the previous chunk was kept) or
appends a new reader [pos, pos + length); a dropped chunk resets the merge
state.  Either way the source is then seeked length bytes forward, where
length is the declared payload length plus 4 for the CRC. -/
def scanLoop (fuel : Nat) (f : RS) (rds : List SRS) (pos : Int) (kept : Bool) :
    Option (Except RErr (List SRS × Int × RS)) :=
  match fuel with
  | 0 => none
  | fuel + 1 =>
    let (p, eof, f1) := rsRead f 8
    if eof then some (.ok (rds, pos, f1))
    else if p.length ≠ 8 then some (.error .shortChunkHeader)
    else
      let length : Int := (be32val (p.take 4) : Int) + 4
      let chunk := p.drop 4
      let rds2 :=
        if ¬retain chunk then rds
        else if kept then
          let k := rds.length - 1
          rds.set k { rds.getD k default with endPos := pos }
        else
          rds ++ [{ name := "chunk", src := 0, start := pos,
                    endPos := pos + length, offset := 0 }]
      let kept2 := retain chunk
      let target := f1.pos + length
      if target < 0 then some (.error .seekFail)
      else scanLoop fuel { f1 with pos := target } rds2 target kept2

/-- The header range [0, 33) over the source file. -/
def hdrSRS : SRS := { name := "header", src := 0, start := 0, endPos := ihdrEnd, offset := 0 }

/-- The synthetic metadata range over the in-memory blob. -/
def metaSRS (bl : Int) : SRS := { name := "metadata", src := 1, start := 0, endPos := bl, offset := 0 }

/-- ReplaceMeta (multiReadSeeker implementation): Assert, encode the
metadata blob, seek the source to the end of IHDR, scan the chunk
sequence building the reader list, set the end of the last reader to the
final scan position, and build a multiReadSeeker over the readers with
source 0 the file and source 1 the blob. -/
def replaceMeta (f : RS) (md : Metadata) : Except RErr (MRS × List RS) :=
  match assertGo f [] with
  | (.error e, _) => .error (.fromAssert e)
  | (.ok _, f1) =>
    let blob := encodeMeta md
    let f2 : RS := { f1 with pos := ihdrEnd }
    let rds0 : List SRS := [hdrSRS, metaSRS blob.length]
    match scanLoop (f2.data.length + 2) f2 rds0 ihdrEnd false with
    | none => .error .fuelOut
    | some (.error e) => .error e
    | some (.ok (rds, pos, f3)) =>
      let k := rds.length - 1
      let rds2 := rds.set k { rds.getD k default with endPos := pos }
      match newMultiReadSeeker rds2 [f3, { data := blob, pos := 0 }] with
      | .error e => .error (.chainSeek e)
      | .ok (m, srcs) => .ok (m, srcs)

/-- Run the multiReadSeeker ReplaceMeta from position 0 and fully drain
the produced chain. -/
def pipelineNew (d : List Nat) (md : Metadata) : Option (List Nat) :=
  match replaceMeta { data := d, pos := 0 } md with
  | .ok (m, srcs) => mrsDrain m srcs
  | .error _ => none

/-
The earlier ReplaceMeta implementation (pngutil.go): skipReader views
combined with io.MultiReader.
-/

/-- skipReader: a view [offset, limit) into a shared source, seeking the
source to offset on the first read only. -/
structure SkipR where
  src : Nat := 0
  offset : Int := 0
  limit : Int := 0
  begun : Bool := false
deriving DecidableEq, Repr, Inhabited

/-- A constituent of the io.MultiReader: a skipReader over a shared
source, or the bytes.Reader holding the metadata blob. -/
inductive OldReader
  | skip (sr : SkipR)
  | mem (src : Nat)
deriving DecidableEq, Repr, Inhabited

/-- skipReader.Read: on the first call seek the source to offset (with no
limit check); on later calls report EOF once offset reaches limit.  Then
clamp the buffer to limit - offset and read from the source's current
position, advancing offset by the count read.  A negative seek target
aborts (modelled as none; unreachable in this package's use). -/
def skipRead (srcs : List RS) (sr : SkipR) (pLen : Nat) :
    Option (List Nat × Bool × SkipR × List RS) :=
  if ¬sr.begun then
    if sr.offset < 0 then none
    else
      let r := srcs.getD sr.src default
      let r1 : RS := { r with pos := sr.offset }
      let srcs1 := srcs.set sr.src r1
      let max := sr.limit - sr.offset
      let pLen1 := if (pLen : Int) > max then max.toNat else pLen
      let (bs, eof, r2) := rsRead r1 pLen1
      some (bs, eof, { sr with begun := true, offset := sr.offset + bs.length },
            srcs1.set sr.src r2)
  else if sr.limit ≤ sr.offset then some ([], true, sr, srcs)
  else
    let max := sr.limit - sr.offset
    let pLen1 := if (pLen : Int) > max then max.toNat else pLen
    let r := srcs.getD sr.src default
    let (bs, eof, r2) := rsRead r pLen1
    some (bs, eof, { sr with offset := sr.offset + bs.length }, srcs.set sr.src r2)

/-- Drain one constituent reader of the io.MultiReader with repeated
64-byte reads until it reports EOF. -/
def oldDrainOne (fuel : Nat) (srcs : List RS) (r : OldReader) (acc : List Nat) :
    Option (List Nat × OldReader × List RS) :=
  match fuel with
  | 0 => none
  | fuel + 1 =>
    match r with
    | .mem i =>
      let rs := srcs.getD i default
      let (bs, eof, rs2) := rsRead rs 64
      let srcs2 := srcs.set i rs2
      if eof then some (acc, .mem i, srcs2)
      else oldDrainOne fuel srcs2 (.mem i) (acc ++ bs)
    | .skip sr =>
      match skipRead srcs sr 64 with
      | none => none
      | some (bs, eof, sr2, srcs2) =>
        if eof then some (acc ++ bs, .skip sr2, srcs2)
        else oldDrainOne fuel srcs2 (.skip sr2) (acc ++ bs)

/-- Drain an io.MultiReader: each constituent in order, to EOF. -/
def oldDrain (fuel : Nat) (srcs : List RS) (rs : List OldReader) (acc : List Nat) :
    Option (List Nat) :=
  match rs with
  | [] => some acc
  | r :: rest =>
    match oldDrainOne fuel srcs r acc with
    | none => none
    | some (acc2, _, srcs2) => oldDrain fuel srcs2 rest acc2

/-- The chunk scan loop of the skipReader ReplaceMeta: a dropped chunk
closes the currently active skipReader at the current header position
(removing it if it would be empty); a retained chunk opens a new
skipReader at the current header position when none is active. -/
def oldScanLoop (fuel : Nat) (f : RS) (rds : List OldReader) (pos : Int)
    (active : Bool) : Option (Except RErr (List OldReader × Int × RS)) :=
  match fuel with
  | 0 => none
  | fuel + 1 =>
    let (p, eof, f1) := rsRead f 8
    if eof then some (.ok (rds, pos, f1))
    else if p.length ≠ 8 then some (.error .shortChunkHeader)
    else
      let length : Int := (be32val (p.take 4) : Int) + 4
      let chunk := p.drop 4
      let st :=
        if ¬retain chunk then
          if ¬active then (rds, active)
          else
            let k := rds.length - 1
            match rds.getD k default with
            | .mem _ => (rds, false)
            | .skip sr =>
              if sr.offset = pos then (rds.take k, false)
              else (rds.set k (.skip { sr with limit := pos }), false)
        else
          if active then (rds, active)
          else (rds ++ [.skip { src := 0, offset := pos, limit := 0, begun := false }], true)
      let target := f1.pos + length
      if target < 0 then some (.error .seekFail)
      else oldScanLoop fuel { f1 with pos := target } st.1 target st.2

/-- ReplaceMeta (skipReader implementation): Assert, encode, seek to the
end of IHDR, scan, then set the limit of the last reader --- which the
code type-asserts to be a skipReader (none models the panic when it is
not) --- to the final scan position, and return the io.MultiReader
constituents. -/
def replaceMetaOld (f : RS) (md : Metadata) :
    Option (Except RErr (List OldReader × List RS)) :=
  match assertGo f [] with
  | (.error e, _) => some (.error (.fromAssert e))
  | (.ok _, f1) =>
    let blob := encodeMeta md
    let f2 : RS := { f1 with pos := ihdrEnd }
    let rds0 : List OldReader :=
      [.skip { src := 0, offset := 0, limit := ihdrEnd, begun := false },
       .mem 1,
       .skip { src := 0, offset := ihdrEnd, limit := 0, begun := false }]
    match oldScanLoop (f2.data.length + 2) f2 rds0 ihdrEnd true with
    | none => some (.error .fuelOut)
    | some (.error e) => some (.error e)
    | some (.ok (rds, pos, f3)) =>
      let k := rds.length - 1
      match rds.getD k default with
      | .mem _ => none
      | .skip sr =>
        let rds2 := rds.set k (.skip { sr with limit := pos })
        some (.ok (rds2, [f3, { data := blob, pos := 0 }]))

/-- Run the skipReader ReplaceMeta from position 0 and fully drain the
io.MultiReader. -/
def pipelineOld (d : List Nat) (md : Metadata) : Option (List Nat) :=
  match replaceMetaOld { data := d, pos := 0 } md with
  | some (.ok (rds, srcs)) => oldDrain (d.length + 66) srcs rds []
  | _ => none

/-
Concrete inputs used to evaluate the implementations.
-/

/-- A PNG that passes Assert: signature and IHDR (33 bytes), an IDAT
chunk with an 8-byte payload at [33, 53), a tEXt chunk at [53, 73), and
the IEND chunk at [73, 85). -/
def cFile : List Nat :=
  [137, 80, 78, 71, 13, 10, 26, 10,
   0, 0, 0, 13, 73, 72, 68, 82,
   0, 0, 0, 1, 0, 0, 0, 1, 8, 0, 0, 0, 0,
   55, 55, 55, 55,
   0, 0, 0, 8, 73, 68, 65, 84, 1, 2, 3, 4, 5, 6, 7, 8, 9, 9, 9, 9,
   0, 0, 0, 8, 116, 69, 88, 116, 11, 12, 13, 14, 15, 16, 17, 18, 21, 22, 23, 24,
   0, 0, 0, 0, 73, 69, 78, 68, 174, 66, 96, 130]

/-- The byte stream the specification requires for cFile with empty
metadata: signature and IHDR, the full IDAT chunk, the full IEND chunk,
with the dropped tEXt chunk absent. -/
def cFileExpected : List Nat := cFile.take 53 ++ sliceL cFile 73 12

/-- A 33-byte source that passes Assert although it contains no chunks
after offset 33: its final 12 bytes (inside the IHDR payload and CRC)
coincide with the IEND chunk bytes. -/
def cFile33 : List Nat :=
  [137, 80, 78, 71, 13, 10, 26, 10,
   0, 0, 0, 13, 73, 72, 68, 82,
   0, 0, 0, 0, 0,
   0, 0, 0, 0, 73, 69, 78, 68, 174, 66, 96, 130]

/-- The chain replaceMeta builds for cFile with empty metadata. -/
def cChain : MRS × List RS :=
  match replaceMeta { data := cFile, pos := 0 } [] with
  | .ok p => p
  | .error _ => default

/-- The chain replaceMeta builds for cFile33 with empty metadata. -/
def cChain33 : MRS × List RS :=
  match replaceMeta { data := cFile33, pos := 0 } [] with
  | .ok p => p
  | .error _ => default

/-- Two 8-byte sources, as in the package's multiReadSeeker test. -/
def twoSrcs : List RS :=
  [{ data := [0, 1, 2, 3, 4, 5, 6, 7], pos := 0 },
   { data := [8, 9, 10, 11, 12, 13, 14, 15], pos := 0 }]

/-- Two 8-byte ranges over those sources. -/
def twoReaders : List SRS :=
  [{ name := "", src := 0, start := 0, endPos := 8, offset := 0 },
   { name := "", src := 1, start := 0, endPos := 8, offset := 0 }]

/-- The chain newMultiReadSeeker builds over the two 8-byte ranges. -/
def twoChain : MRS × List RS :=
  match newMultiReadSeeker twoReaders twoSrcs with
  | .ok p => p
  | .error _ => default

/-- A six-byte source. -/
def sixSrc : RS := { data := [10, 11, 12, 13, 14, 15], pos := 0 }

/-- A range [2, 6) into sixSrc whose cursor is at its start but whose
source has been repositioned to 0 by someone else. -/
def midRange : SRS := { name := "", src := 0, start := 2, endPos := 6, offset := 2 }

/-- A twelve-byte source. -/
def twelveSrc : RS := { data := [0, 1, 2, 3, 4, 5, 6, 7, 8, 9, 10, 11], pos := 0 }

/-- A range [0, 4) into twelveSrc. -/
def shortRange : SRS := { name := "", src := 0, start := 0, endPos := 4, offset := 0 }

/-- Whether some source-file-backed range of the list covers [a, b) in
full. -/
def coversR (rds : List SRS) (a b : Int) : Bool :=
  rds.any (fun r => r.src == 0 && decide (r.start ≤ a) && decide (b ≤ r.endPos))

/-- The bytes a range stands for: the slice of its source it covers. -/
def rangeBytes (srcs : List RS) (s : SRS) : List Nat :=
  extI (srcs.getD s.src default).data s.start s.endPos

/-- The virtual concatenated stream of a chain of ranges. -/
def chainBytes (m : MRS) (srcs : List RS) : List Nat :=
  (m.readSeekers.map (rangeBytes srcs)).flatten

/-- Integer list sum, written as the Go accumulation loop. -/
def sumI (l : List Int) : Int := l.foldl (fun a b => a + b) 0

/-- Well-formedness of a chain: cached sizes and total size match the
ranges, and every range lies inside its (existing) source. -/
def wfChain (m : MRS) (srcs : List RS) : Prop :=
  m.sizes = m.readSeekers.map (fun s => s.endPos - s.start) ∧
  m.size = sumI m.sizes ∧
  ∀ s ∈ m.readSeekers, 0 ≤ s.start ∧ s.start ≤ s.endPos ∧ s.src < srcs.length ∧
    s.endPos ≤ ((srcs.getD s.src default).data.length : Int)

/-- The reading invariant of a chain: well-formed, the active index in
range, the active range's cursor within its bounds and aligned with its
source's position, and overall equal to the bytes logically before the
cursor. -/
def rInv (m : MRS) (srcs : List RS) : Prop :=
  wfChain m srcs ∧ m.rsIdx < m.readSeekers.length ∧
  (m.readSeekers.getD m.rsIdx default).start ≤ (m.readSeekers.getD m.rsIdx default).offset ∧
  (m.readSeekers.getD m.rsIdx default).offset ≤ (m.readSeekers.getD m.rsIdx default).endPos ∧
  (srcs.getD (m.readSeekers.getD m.rsIdx default).src default).pos =
    (m.readSeekers.getD m.rsIdx default).offset ∧
  m.overall =
    sumI ((m.readSeekers.take m.rsIdx).map (fun s => s.endPos - s.start)) +
      ((m.readSeekers.getD m.rsIdx default).offset - (m.readSeekers.getD m.rsIdx default).start)

/-- The bytes still ahead of the chain's cursor: the rest of the active
range, then all later ranges. -/
def suffixBytes (m : MRS) (srcs : List RS) : List Nat :=
  extI (srcs.getD (m.readSeekers.getD m.rsIdx default).src default).data
      (m.readSeekers.getD m.rsIdx default).offset
      (m.readSeekers.getD m.rsIdx default).endPos ++
    ((m.readSeekers.drop (m.rsIdx + 1)).map (rangeBytes srcs)).flatten

/-- The region of d from pos to the end tiles exactly into chunks: at each
step the 8-byte chunk header is fully present and skipping the header plus
the declared payload-and-CRC length eventually lands exactly on the end of
d (mirrors the stepping of the chunk scan). -/
def tiles (fuel : Nat) (d : List Nat) (pos : Int) : Bool :=
  match fuel with
  | 0 => false
  | fuel + 1 =>
    if pos = (d.length : Int) then true
    else if pos + 8 ≤ (d.length : Int) ∧ 0 ≤ pos then
      tiles fuel d (pos + 8 + ((be32val ((d.drop pos.toNat).take 4) : Int) + 4))
    else false

/-- At least one chunk in the tiling of d from pos has a retained type. -/
def anyRetained (fuel : Nat) (d : List Nat) (pos : Int) : Bool :=
  match fuel with
  | 0 => false
  | fuel + 1 =>
    if pos = (d.length : Int) then false
    else if pos + 8 ≤ (d.length : Int) ∧ 0 ≤ pos then
      retain (((d.drop pos.toNat).take 8).drop 4) ||
        anyRetained fuel d (pos + 8 + ((be32val ((d.drop pos.toNat).take 4) : Int) + 4))
    else false

/-
Theorems.  First a few generic list helpers used throughout.
-/

theorem getD_set_self {α : Type} [Inhabited α] (l : List α) (i : Nat) (a : α)
    (h : i < l.length) : (l.set i a).getD i default = a := by
  simp [List.getD_eq_getElem?_getD, List.getElem?_set_self', List.getElem?_eq_getElem h]

theorem getD_set_ne {α : Type} [Inhabited α] (l : List α) (i j : Nat) (a : α)
    (h : i ≠ j) : (l.set i a).getD j default = l.getD j default := by
  simp [List.getD_eq_getElem?_getD, List.getElem?_set_ne h]

theorem rsRead_data (r : RS) (n : Nat) : (rsRead r n).2.2.data = r.data := by
  unfold rsRead
  split
  · rfl
  · rfl

/-- C1: for every source passing structural validation and every
metadata mapping, draining the ReplaceMeta chain should yield source
bytes [0, 33), the encoded blob, then every retained chunk in full, with
dropped chunks absent.  The code violates this: cFile passes Assert, its
chunk region is IDAT then tEXt then IEND, yet the drained chain omits the
final 8 bytes of the retained IDAT chunk [33, 53), because the scan's
appended range ends at the chunk-header position plus payload length + 4
and is never widened once the following chunk is dropped. -/
theorem c1_replaceMeta_output_drops_retained_bytes :
    (assertGo { data := cFile, pos := 0 } []).1 = .ok () ∧
    cFileExpected = cFile.take 33 ++ encodeMeta [] ++ sliceL cFile 33 20 ++ sliceL cFile 73 12 ∧
    pipelineNew cFile [] = some (cFile.take 45 ++ sliceL cFile 73 12) ∧
    pipelineNew cFile [] ≠ some cFileExpected := by decide

/-- C2: every retained chunk should be covered in full by exactly one
source-backed range.  The code violates this on cFile: the retained IDAT
chunk spans [33, 53) but the emitted ranges are [0, 33), the metadata
range, [33, 45) and [73, 85), so bytes [45, 53) of the IDAT chunk are
covered by no range at all. -/
theorem c2_retained_chunk_not_fully_covered :
    replaceMeta { data := cFile, pos := 0 } [] = .ok cChain ∧
    cChain.1.readSeekers.map (fun s => (s.start, s.endPos)) =
      [(0, 33), (0, 0), (33, 45), (73, 85)] ∧
    retain (sliceL cFile 37 4) = true ∧
    coversR cChain.1.readSeekers 33 53 = false := by decide

/-- C10: the skipReader and skipReadSeeker implementations of ReplaceMeta
should produce identical byte sequences whenever both succeed.  On cFile
with empty metadata both succeed, but the older skipReader implementation
yields the full spliced stream while the newer one omits the last 8 bytes
of the IDAT chunk. -/
theorem c10_implementations_diverge :
    pipelineOld cFile [] = some cFileExpected ∧
    pipelineNew cFile [] = some (cFile.take 45 ++ sliceL cFile 73 12) ∧
    pipelineNew cFile [] ≠ pipelineOld cFile [] := by decide

/-- C3 counterexample: the claim admits seeks to any resolved offset in
the closed interval [0, totalSize], but on the chain of two 8-byte ranges
(totalSize 16) a seek to exactly 16 fails with the out-of-bounds error,
because the linear scan only accepts offsets strictly below the running
total plus the range size. -/
theorem c3_seek_to_total_size_fails :
    newMultiReadSeeker twoReaders twoSrcs = .ok twoChain ∧
    twoChain.1.size = 16 ∧
    (mrsSeek twoChain.1 twoChain.2 16 .start).1 = .error .outOfBounds := by decide

/-- C6 counterexample: a read is claimed to reposition the shared source
to start + logical offset whenever the source was moved by someone else.
In fact skipReadSeeker.Read never seeks: with the range [2, 6) at logical
offset 0 but the shared source left at position 0, the read returns the
source byte at 0, not the byte at start + 0 = 2. -/
theorem c6_read_does_not_reposition :
    (srsRead [sixSrc] midRange 1).1 = [10] ∧
    sliceL sixSrc.data (midRange.start + 0).toNat 1 = [12] ∧
    ([10] : List Nat) ≠ [12] := by decide

/-- C7 counterexample: the invariant cursor - start ≤ end - start is
claimed to hold after every operation, but Seek checks only the lower
bound: seeking the range [0, 4) to absolute position 10 succeeds and
leaves the cursor 6 bytes beyond end. -/
theorem c7_seek_beyond_end_breaks_invariant :
    (srsSeek [twelveSrc] shortRange 10 .start).1 = .ok 10 ∧
    ¬((srsSeek [twelveSrc] shortRange 10 .start).2.1.offset - shortRange.start ≤
        shortRange.endPos - shortRange.start) := by decide

/-- C6 amended: skipReadSeeker.Read never repositions the shared source;
it reads from the source's current position and advances the cursor by
the count read.  Consequently a read at logical offset k returns the
source bytes at start + k exactly when the source's position already
equals the range's cursor start + k, as the chain's seeks arrange before
each range is read; repositioning happens only in Seek, never in Read. -/
theorem c6_read_from_aligned_source (srcs : List RS) (s : SRS) (pLen : Nat)
    (hsrc : s.src < srcs.length)
    (hpos : (srcs.getD s.src default).pos = s.offset)
    (hlt : s.offset < s.endPos)
    (hend : s.endPos ≤ ((srcs.getD s.src default).data.length : Int)) :
    (srsRead srcs s pLen).1 =
      sliceL (srcs.getD s.src default).data s.offset.toNat
        (min (s.endPos - s.offset).toNat pLen) ∧
    (srsRead srcs s pLen).2.1 = false ∧
    (srsRead srcs s pLen).2.2.1 =
      { s with offset := s.offset + ((srsRead srcs s pLen).1.length : Int) } ∧
    ((srsRead srcs s pLen).2.2.2.getD s.src default).pos =
      s.offset + ((srsRead srcs s pLen).1.length : Int) := by
  have hdata : ¬ (((srcs.getD s.src default).data.length : Int) ≤ s.offset) := by
    omega
  have htr : (min (s.endPos - s.offset) (pLen : Int)).toNat =
      min (s.endPos - s.offset).toNat pLen := by omega
  simp only [srsRead, rsRead, if_neg (by omega : ¬ s.endPos ≤ s.offset), hpos,
    if_neg hdata, htr, sliceL]
  refine ⟨by trivial, by trivial, by trivial, ?_⟩
  rw [getD_set_self _ _ _ hsrc]

/-- C6 amended witness. -/
theorem c6_read_from_aligned_source_witness :
    (srsRead [{ data := [10, 11, 12, 13, 14, 15], pos := 2 }]
        { name := "", src := 0, start := 2, endPos := 6, offset := 2 } 1).1 =
      sliceL [10, 11, 12, 13, 14, 15] 2 (min 4 1) :=
  (c6_read_from_aligned_source [{ data := [10, 11, 12, 13, 14, 15], pos := 2 }]
    { name := "", src := 0, start := 2, endPos := 6, offset := 2 } 1
    (by decide) (by decide) (by decide) (by decide)).1

/-- C7 amended: after a read the full invariant
0 ≤ cursor - start ≤ end - start is preserved, and a successful seek
re-establishes the lower bound cursor ≥ start; but a seek enforces no
upper bound: it simply stores the resolved position, which may lie beyond
end (the counterexample shows the original two-sided invariant fails). -/
theorem c7_read_preserves_seek_lower_bound (srcs : List RS) (s : SRS) (pLen : Nat)
    (off : Int) (w : Whence)
    (hso : s.start ≤ s.offset) (hoe : s.offset ≤ s.endPos)
    (hres : s.start ≤ srsResolve s off w) :
    (s.start ≤ (srsRead srcs s pLen).2.2.1.offset ∧
      (srsRead srcs s pLen).2.2.1.offset ≤ s.endPos) ∧
    (srsSeek srcs s off w).2.1.offset = srsResolve s off w ∧
    s.start ≤ (srsSeek srcs s off w).2.1.offset := by
  constructor
  · by_cases h : s.endPos ≤ s.offset
    · simp [srsRead, h]; omega
    · have hb : ((rsRead (srcs.getD s.src default)
          (min (s.endPos - s.offset) (pLen : Int)).toNat).1.length : Int) ≤
          min (s.endPos - s.offset) (pLen : Int) := by
        unfold rsRead
        split
        · simp only [List.length_nil, Nat.cast_zero]
          omega
        · simp only [List.length_take, List.length_drop]
          omega
      simp only [srsRead, if_neg h]
      constructor
      · have : (0 : Int) ≤ ((rsRead (srcs.getD s.src default)
            (min (s.endPos - s.offset) (pLen : Int)).toNat).1.length : Int) := by positivity
        omega
      · omega
  · simp only [srsSeek, if_neg (by omega : ¬ srsResolve s off w < s.start)]
    constructor
    · split <;> rfl
    · split <;> simpa using hres

/-- C7 amended witness. -/
theorem c7_read_preserves_seek_lower_bound_witness :
    (2 : Int) ≤ (srsRead [sixSrc] midRange 1).2.2.1.offset ∧
      (srsRead [sixSrc] midRange 1).2.2.1.offset ≤ 6 :=
  (c7_read_preserves_seek_lower_bound [sixSrc] midRange 1 0 .start
    (by decide) (by decide) (by decide)).1

/-- C8: a skipReadSeeker seek fails with the before-start bounds error
exactly when the resolved absolute position is below start (for a range
whose start is a non-negative source position, as all ranges in this
package are), and on that error neither the range nor the source is
changed; seeking exactly to end succeeds and the following read returns
zero bytes with end-of-data. -/
theorem c8_seek_bounds (srcs : List RS) (s : SRS) (pLen : Nat) (off : Int) (w : Whence)
    (h0 : 0 ≤ s.start) (hse : s.start ≤ s.endPos) :
    ((srsSeek srcs s off w).1 = .error .beforeStart ↔ srsResolve s off w < s.start) ∧
    (srsResolve s off w < s.start →
      (srsSeek srcs s off w).2.1 = s ∧ (srsSeek srcs s off w).2.2 = srcs) ∧
    (srsSeek srcs s 0 .fromEnd).1 = .ok s.endPos ∧
    (srsRead (srsSeek srcs s 0 .fromEnd).2.2 (srsSeek srcs s 0 .fromEnd).2.1 pLen).1 = [] ∧
    (srsRead (srsSeek srcs s 0 .fromEnd).2.2 (srsSeek srcs s 0 .fromEnd).2.1 pLen).2.1 = true := by
  have hres : srsResolve s 0 .fromEnd = s.endPos := by simp [srsResolve]
  have hseek : (srsSeek srcs s 0 .fromEnd).1 = .ok s.endPos ∧
      (srsSeek srcs s 0 .fromEnd).2.1 = { s with offset := s.endPos } := by
    simp only [srsSeek, hres, if_neg (by omega : ¬ s.endPos < s.start)]
    rw [rsSeek, if_neg (by omega : ¬ s.endPos < 0)]
    exact ⟨rfl, rfl⟩
  refine ⟨?_, ?_, hseek.1, ?_, ?_⟩
  · constructor
    · intro h
      by_contra hc
      simp only [srsSeek, if_neg hc] at h
      rw [rsSeek, if_neg (by omega : ¬ srsResolve s off w < 0)] at h
      simp at h
    · intro h
      simp [srsSeek, if_pos h]
  · intro h
    simp [srsSeek, if_pos h]
  · rw [hseek.2, srsRead]
    simp
  · rw [hseek.2, srsRead]
    simp

/-- C8 witness. -/
theorem c8_seek_bounds_witness :
    ((srsSeek [sixSrc] midRange (-2) .start).1 = .error .beforeStart ↔
      srsResolve midRange (-2) .start < midRange.start) ∧
    (srsSeek [sixSrc] midRange 0 .fromEnd).1 = .ok 6 :=
  ⟨(c8_seek_bounds [sixSrc] midRange 1 (-2) .start (by decide) (by decide)).1,
   (c8_seek_bounds [sixSrc] midRange 1 (-2) .start (by decide) (by decide)).2.2.1⟩

/-- C4: Assert restores the source's position to what it was at the time
of the call on every path after the initial position capture (success,
structural failure, or I/O failure anywhere in the body, as driven by an
arbitrary fault schedule); the only exception is when the restoring seek
itself fails, and then the returned error is the restore failure carrying
the body's error, if any, rather than discarding either.  The source's
data is never modified.  When the initial capture fails the position is
trivially unchanged. -/
theorem c4_assert_restores_position (d : List Nat) (p0 : Int) (faults : List Bool) :
    (assertGo { data := d, pos := p0 } faults).2.data = d ∧
    ((assertGo { data := d, pos := p0 } faults).2.pos = p0 ∨
      (assertGo { data := d, pos := p0 } faults).1 =
        .error (.restoreFailed (exErr (assertBody { data := d, pos := p0 } faults).1))) := by
  have hdata : ∀ r : RS, ∀ fs, (assertBody r fs).2.data = r.data := by
    intro r fs
    unfold assertBody
    split
    · rfl
    split
    · rfl
    split
    rename_i b1 eof1 r2 heq
    have hr2 : r2.data = r.data := by
      have h := rsRead_data { data := r.data, pos := 0 } 16
      rw [heq] at h
      exact h
    split
    · exact hr2
    dsimp only
    split
    · exact hr2
    split
    · exact hr2
    split
    · exact hr2
    rcases hq : rsRead { data := r2.data, pos := (r2.data.length : Int) - 12 } 16 with ⟨b2, e2, r4⟩
    have hr4 : r4.data = r2.data := by
      have h := rsRead_data { data := r2.data, pos := (r2.data.length : Int) - 12 } 16
      rw [hq] at h
      exact h
    dsimp only
    split
    · exact hr4.trans hr2
    · exact hr4.trans hr2
  constructor
  · unfold assertGo
    split
    · rfl
    · split
      · exact hdata _ _
      · exact hdata _ _
  · unfold assertGo
    split
    · exact Or.inl rfl
    · split
      · exact Or.inr rfl
      · exact Or.inl rfl

theorem writeAt_shift' (A B xs : List Nat) (o t : Nat) (h : o = A.length + t) :
    writeAt (A ++ B) o xs = A ++ writeAt B t xs := by
  unfold writeAt
  subst h
  rw [List.take_append, show A.length + t + xs.length = A.length + (t + xs.length) by omega,
    List.drop_append]
  simp [List.append_assoc]

theorem writeAt_front (B xs : List Nat) : writeAt B 0 xs = xs ++ B.drop xs.length := by
  unfold writeAt
  simp

theorem writeAt_replicate' (m t : Nat) (xs : List Nat) (h : t + xs.length ≤ m) :
    writeAt (List.replicate m 0) t xs =
      List.replicate t 0 ++ xs ++ List.replicate (m - t - xs.length) 0 := by
  unfold writeAt
  rw [List.take_replicate, List.drop_replicate, Nat.min_eq_left (by omega), Nat.sub_sub]

theorem sliceL_shift' (A B : List Nat) (o t n : Nat) (h : o = A.length + t) :
    sliceL (A ++ B) o n = sliceL B t n := by
  unfold sliceL
  subst h
  rw [List.drop_append]

theorem sliceL_zero (B : List Nat) (n : Nat) : sliceL B 0 n = B.take n := rfl

theorem take_shift' (X Y : List Nat) (n t : Nat) (h : n = X.length + t) :
    (X ++ Y).take n = X ++ Y.take t := by
  subst h
  exact List.take_append t

theorem take_exact (X Y : List Nat) (n : Nat) (h : n = X.length) : (X ++ Y).take n = X := by
  subst h
  exact List.take_left X Y

theorem drop_exact (X Y : List Nat) (n : Nat) (h : n = X.length) : (X ++ Y).drop n = Y := by
  subst h
  exact List.drop_left X Y

theorem itxtB_length : itxtB.length = 4 := rfl

theorem be32_length (n : Nat) : (be32 n).length = 4 := rfl

theorem encodeStep_shift (A B : List Nat) (kv : List Nat × List Nat) :
    encodeStep (A ++ B, A.length) kv =
      (A ++ (encodeStep (B, 0) kv).1, A.length + (encodeStep (B, 0) kv).2) := by
  unfold encodeStep
  dsimp only
  rw [writeAt_shift' A _ itxtB (A.length + 4) (0 + 4) (by omega)]
  rw [writeAt_shift' A _ kv.1 (A.length + 4 + 4) (0 + 4 + 4) (by omega)]
  rw [writeAt_shift' A _ kv.2 (A.length + 4 + 4 + kv.1.length + 5)
    (0 + 4 + 4 + kv.1.length + 5) (by omega)]
  rw [writeAt_shift' A _ _ A.length 0 (by omega)]
  rw [show A.length + 4 + 4 + kv.1.length + 5 + kv.2.length - (A.length + 8)
      = 0 + 4 + 4 + kv.1.length + 5 + kv.2.length - (0 + 8) by omega]
  rw [sliceL_shift' A _ (A.length + 4) (0 + 4) _ (by omega)]
  rw [writeAt_shift' A _ _ (A.length + 4 + 4 + kv.1.length + 5 + kv.2.length)
    (0 + 4 + 4 + kv.1.length + 5 + kv.2.length) (by omega)]
  rw [show A.length + 4 + 4 + kv.1.length + 5 + kv.2.length + 4
      = A.length + (0 + 4 + 4 + kv.1.length + 5 + kv.2.length + 4) by omega]

theorem encodeStep_at0 (m : Nat) (kv : List Nat × List Nat)
    (hm : 17 + kv.1.length + kv.2.length ≤ m)
    (hsz : kv.1.length + 5 + kv.2.length < 4294967296) :
    encodeStep (List.replicate m 0, 0) kv =
      (specRecord kv ++ List.replicate (m - (17 + kv.1.length + kv.2.length)) 0,
       17 + kv.1.length + kv.2.length) := by
  unfold encodeStep
  dsimp only
  rw [show (0 + 4 + 4 + kv.1.length + 5 + kv.2.length - (0 + 8)) % 4294967296
      = kv.1.length + 5 + kv.2.length by omega]
  rw [writeAt_replicate' m (0 + 4) itxtB (by rw [itxtB_length]; omega)]
  rw [writeAt_shift' (List.replicate (0 + 4) 0 ++ itxtB) _ kv.1 (0 + 4 + 4) 0
    (by simp [itxtB_length])]
  rw [writeAt_front _ kv.1, List.drop_replicate]
  rw [writeAt_shift' (List.replicate (0 + 4) 0 ++ itxtB) _ kv.2 (0 + 4 + 4 + kv.1.length + 5)
    (kv.1.length + 5) (by simp [itxtB_length]; omega)]
  rw [writeAt_shift' kv.1 _ kv.2 (kv.1.length + 5) 5 (by omega)]
  rw [writeAt_replicate' _ 5 kv.2 (by rw [itxtB_length]; omega)]
  rw [writeAt_front _ (be32 (kv.1.length + 5 + kv.2.length)), be32_length]
  rw [List.append_assoc (List.replicate (0 + 4) 0) itxtB]
  rw [drop_exact (List.replicate (0 + 4) 0) _ 4 (by simp)]
  rw [sliceL_shift' (be32 (kv.1.length + 5 + kv.2.length)) _ (0 + 4) 0 _ (by rw [be32_length])]
  rw [sliceL_zero]
  rw [take_shift' itxtB _ _ (kv.1.length + 5 + kv.2.length) (by rw [itxtB_length])]
  rw [take_shift' kv.1 _ _ (5 + kv.2.length) (by omega)]
  rw [take_exact (List.replicate 5 0 ++ kv.2) _ (5 + kv.2.length) (by simp; omega)]
  rw [writeAt_shift' (be32 (kv.1.length + 5 + kv.2.length)) _ _
    (0 + 4 + 4 + kv.1.length + 5 + kv.2.length) (4 + kv.1.length + 5 + kv.2.length)
    (by rw [be32_length]; omega)]
  rw [writeAt_shift' itxtB _ _ (4 + kv.1.length + 5 + kv.2.length)
    (kv.1.length + 5 + kv.2.length) (by rw [itxtB_length]; omega)]
  rw [writeAt_shift' kv.1 _ _ (kv.1.length + 5 + kv.2.length) (5 + kv.2.length) (by omega)]
  rw [writeAt_shift' (List.replicate 5 0 ++ kv.2) _ _ (5 + kv.2.length) 0 (by simp; omega)]
  rw [writeAt_front _ _, be32_length, List.drop_replicate]
  unfold specRecord
  simp only [Prod.mk.injEq]
  constructor
  · simp only [List.append_assoc, itxtB_length]
    rw [show m - (0 + 4) - 4 - kv.1.length - 5 - kv.2.length - 4
        = m - (17 + kv.1.length + kv.2.length) by omega]
  · omega

theorem itxtLen_shift (md : Metadata) : ∀ a : Nat,
    md.foldl (fun acc kv => acc + 4 + 4 + kv.1.length + 5 + kv.2.length + 4) a =
      a + itxtLenOf md := by
  induction md with
  | nil => intro a; simp [itxtLenOf]
  | cons kv rest ih =>
    intro a
    unfold itxtLenOf
    simp only [List.foldl_cons]
    rw [ih, ih (0 + 4 + 4 + kv.1.length + 5 + kv.2.length + 4)]
    omega

theorem itxtLenOf_cons (kv : List Nat × List Nat) (rest : Metadata) :
    itxtLenOf (kv :: rest) = 17 + kv.1.length + kv.2.length + itxtLenOf rest := by
  unfold itxtLenOf
  simp only [List.foldl_cons]
  rw [itxtLen_shift]
  unfold itxtLenOf
  omega

theorem specRecord_length (kv : List Nat × List Nat) :
    (specRecord kv).length = 17 + kv.1.length + kv.2.length := by
  unfold specRecord
  simp only [List.length_append, be32_length, itxtB_length, List.length_replicate]
  omega

theorem flatten_spec_length (md : Metadata) :
    ((md.map specRecord).flatten).length = itxtLenOf md := by
  induction md with
  | nil => simp [itxtLenOf]
  | cons kv rest ih =>
    simp only [List.map_cons, List.flatten_cons, List.length_append, ih,
      specRecord_length, itxtLenOf_cons]

theorem encodeFold (md : Metadata) : ∀ (A : List Nat) (m : Nat),
    (∀ kv ∈ md, kv.1.length + 5 + kv.2.length < 4294967296) →
    itxtLenOf md ≤ m →
    md.foldl encodeStep (A ++ List.replicate m 0, A.length) =
      (A ++ ((md.map specRecord).flatten ++ List.replicate (m - itxtLenOf md) 0),
       A.length + itxtLenOf md) := by
  induction md with
  | nil =>
    intro A m h1 h2
    simp [itxtLenOf]
  | cons kv rest ih =>
    intro A m hsz hm
    have hc := itxtLenOf_cons kv rest
    have hfit : 17 + kv.1.length + kv.2.length ≤ m := by omega
    have hkv : kv.1.length + 5 + kv.2.length < 4294967296 :=
      hsz kv (List.mem_cons_self kv rest)
    rw [List.foldl_cons, encodeStep_shift, encodeStep_at0 m kv hfit hkv]
    dsimp only
    rw [show A ++ (specRecord kv ++ List.replicate (m - (17 + kv.1.length + kv.2.length)) 0)
        = (A ++ specRecord kv) ++ List.replicate (m - (17 + kv.1.length + kv.2.length)) 0
      from (List.append_assoc _ _ _).symm]
  
    rw [show A.length + (17 + kv.1.length + kv.2.length) = (A ++ specRecord kv).length by
      simp only [List.length_append, specRecord_length]]
    rw [ih (A ++ specRecord kv) (m - (17 + kv.1.length + kv.2.length))
      (fun kv2 h2 => hsz kv2 (List.mem_cons_of_mem kv h2)) (by omega)]
    simp only [Prod.mk.injEq, List.append_assoc, List.length_append, specRecord_length]
    constructor
    · rw [show m - (17 + kv.1.length + kv.2.length) - itxtLenOf rest
          = m - itxtLenOf (kv :: rest) by omega]
      simp [List.append_assoc]
    · omega

/-- C5: the metadata encoder emits exactly one record per entry,
concatenated in iteration order with no separators: each record is the
4-byte big-endian length of keyword + 5-byte gap + text, the iTXt tag,
the keyword, five zero bytes, the text, and the big-endian CRC-32/IEEE
over the tag and the keyword + gap + text payload; this holds whenever
each entry's keyword + 5 + text length fits in 32 bits (the uint32 cast
in the code).  A mapping with zero entries yields a zero-length blob. -/
theorem c5_encoder_emits_records (md : Metadata)
    (hsz : ∀ kv ∈ md, kv.1.length + 5 + kv.2.length < 4294967296) :
    encodeMeta md = (md.map specRecord).flatten ∧ encodeMeta [] = [] := by
  refine ⟨?_, rfl⟩
  unfold encodeMeta
  dsimp only
  have h := encodeFold md [] (itxtLenOf md + 8) hsz (by omega)
  simp only [List.nil_append, List.length_nil] at h
  rw [h]
  exact take_exact _ _ _ (flatten_spec_length md).symm

/-- C5 witness. -/
theorem c5_encoder_emits_records_witness :
    encodeMeta [([65], [66, 67])] = ([([65], [66, 67])].map specRecord).flatten ∧
      encodeMeta [] = [] :=
  c5_encoder_emits_records [([65], [66, 67])] (by decide)

/-- C9 counterexample: with empty metadata the synthetic metadata range
is claimed to be zero-length, but on cFile33 (which passes Assert while
containing no chunks after offset 33) the scan appends nothing and the
final fixup overwrites the metadata range's end with the final scan
position 33, producing a 33-long metadata range. -/
theorem c9_fixup_overwrites_meta_range :
    replaceMeta { data := cFile33, pos := 0 } [] = .ok cChain33 ∧
    encodeMeta [] = [] ∧
    (cChain33.1.readSeekers.getD 1 default).name = "metadata" ∧
    (cChain33.1.readSeekers.getD 1 default).endPos -
      (cChain33.1.readSeekers.getD 1 default).start = 33 := by decide

/-
Chain machinery for the amended C3: seekFind, Read, Seek and drain
semantics over the rInv invariant.
-/


theorem sumI_shift (l : List Int) : ∀ a : Int, l.foldl (fun x y => x + y) a = a + sumI l := by
  induction l with
  | nil => intro a; simp [sumI]
  | cons x rest ih =>
    intro a
    unfold sumI
    simp only [List.foldl_cons]
    rw [ih, ih (0 + x)]
    omega

theorem sumI_cons (x : Int) (l : List Int) : sumI (x :: l) = x + sumI l := by
  unfold sumI
  simp only [List.foldl_cons]
  rw [sumI_shift]
  unfold sumI
  omega

theorem sumI_nil : sumI [] = 0 := rfl

theorem sumI_append (l₁ l₂ : List Int) : sumI (l₁ ++ l₂) = sumI l₁ + sumI l₂ := by
  induction l₁ with
  | nil => simp [sumI_nil]
  | cons x rest ih => simp only [List.cons_append, sumI_cons, ih]; omega

theorem sumI_nonneg (l : List Int) (h : ∀ x ∈ l, 0 ≤ x) : 0 ≤ sumI l := by
  induction l with
  | nil => simp [sumI_nil]
  | cons x rest ih =>
    rw [sumI_cons]
    have h1 := h x (List.mem_cons_self x rest)
    have h2 := ih (fun y hy => h y (List.mem_cons_of_mem x hy))
    omega

theorem extI_length (d : List Nat) (a b : Int) (h0 : 0 ≤ a) (hb : b ≤ (d.length : Int)) :
    ((extI d a b).length : Int) = max (b - a) 0 := by
  unfold extI
  simp only [List.length_take, List.length_drop]
  omega

theorem extI_drop (d : List Nat) (a b c : Int) (h0 : 0 ≤ a) (hac : a ≤ c) (hcb : c ≤ b) :
    (extI d a b).drop (c - a).toNat = extI d c b := by
  unfold extI
  rw [List.drop_take, List.drop_drop]
  congr 1
  · omega
  · congr 1
    omega

theorem extI_take (d : List Nat) (a b : Int) (n : Nat) :
    (extI d a b).take n = sliceL d a.toNat (min (b - a).toNat n) := by
  unfold extI sliceL
  rw [List.take_take, Nat.min_comm]

theorem list_decomp {α : Type} [Inhabited α] (l : List α) (i : Nat) (h : i < l.length) :
    l = l.take i ++ l.getD i default :: l.drop (i + 1) := by
  rw [List.getD_eq_getElem l default h, ← List.drop_eq_getElem_cons h,
    List.take_append_drop]

theorem take_set_ge {α : Type} (l : List α) (i j : Nat) (a : α) (h : j ≤ i) :
    (l.set i a).take j = l.take j := by
  induction l generalizing i j with
  | nil => simp
  | cons x rest ih =>
    match i, j with
    | _, 0 => simp
    | 0, j + 1 => omega
    | i + 1, j + 1 =>
      simp only [List.set_cons_succ, List.take_succ_cons]
      rw [ih i j (by omega)]

theorem set_self {α : Type} (l : List α) (i : Nat) (h : i < l.length) :
    l.set i l[i] = l := by
  induction l generalizing i with
  | nil => simp
  | cons x rest ih =>
    match i with
    | 0 => simp
    | i + 1 =>
      simp only [List.set_cons_succ, List.getElem_cons_succ]
      rw [ih i (by simpa using h)]

theorem map_set_congr {α β : Type} [Inhabited α] (l : List α) (i : Nat) (a : α) (f : α → β)
    (hi : i < l.length) (h : f a = f (l.getD i default)) : (l.set i a).map f = l.map f := by
  have hi2 : i < (l.map f).length := by simpa using hi
  rw [List.map_set, h, List.getD_eq_getElem l default hi]
  rw [show f l[i] = (l.map f)[i] from (List.getElem_map f).symm]
  exact set_self (l.map f) i hi2

theorem ranges_flatten_length (srcs : List RS) (l : List SRS)
    (hw : ∀ s ∈ l, 0 ≤ s.start ∧ s.start ≤ s.endPos ∧ s.src < srcs.length ∧
      s.endPos ≤ ((srcs.getD s.src default).data.length : Int)) :
    (((l.map (rangeBytes srcs)).flatten).length : Int) =
      sumI (l.map (fun s => s.endPos - s.start)) := by
  induction l with
  | nil => simp [sumI_nil]
  | cons s rest ih =>
    have hs := hw s (List.mem_cons_self s rest)
    simp only [List.map_cons, List.flatten_cons, List.length_append, sumI_cons, Nat.cast_add]
    rw [ih (fun t ht => hw t (List.mem_cons_of_mem s ht))]
    unfold rangeBytes
    rw [extI_length (srcs.getD s.src default).data s.start s.endPos hs.1 hs.2.2.2]
    omega

theorem chain_drop_suffix (m : MRS) (srcs : List RS) (h : rInv m srcs) :
    (chainBytes m srcs).drop m.overall.toNat = suffixBytes m srcs := by
  obtain ⟨⟨hsz, hsum, hw⟩, hidx, h1, h2, h3, h4⟩ := h
  have hcur := hw (m.readSeekers.getD m.rsIdx default)
    (by rw [List.getD_eq_getElem _ default hidx]; exact List.getElem_mem hidx)
  have hPw : ∀ s ∈ m.readSeekers.take m.rsIdx, 0 ≤ s.start ∧ s.start ≤ s.endPos ∧
      s.src < srcs.length ∧ s.endPos ≤ ((srcs.getD s.src default).data.length : Int) :=
    fun s hs => hw s (List.mem_of_mem_take hs)
  have hPlen := ranges_flatten_length srcs (m.readSeekers.take m.rsIdx) hPw
  have hPpos : 0 ≤ sumI ((m.readSeekers.take m.rsIdx).map (fun s => s.endPos - s.start)) := by
    apply sumI_nonneg
    intro x hx
    simp only [List.mem_map] at hx
    obtain ⟨s, hs, rfl⟩ := hx
    have := hPw s hs
    omega
  have hclen : ((rangeBytes srcs (m.readSeekers.getD m.rsIdx default)).length : Int) =
      (m.readSeekers.getD m.rsIdx default).endPos -
        (m.readSeekers.getD m.rsIdx default).start := by
    unfold rangeBytes
    rw [extI_length _ _ _ hcur.1 hcur.2.2.2]
    omega
  unfold chainBytes suffixBytes
  conv_lhs => rw [list_decomp m.readSeekers m.rsIdx hidx]
  simp only [List.map_append, List.map_cons, List.flatten_append, List.flatten_cons]
  rw [show m.overall.toNat =
      ((m.readSeekers.take m.rsIdx).map (rangeBytes srcs)).flatten.length +
        ((m.readSeekers.getD m.rsIdx default).offset -
          (m.readSeekers.getD m.rsIdx default).start).toNat by omega]
  rw [List.drop_append]
  rw [List.drop_append_of_le_length (by omega)]
  congr 1
  unfold rangeBytes
  exact extI_drop _ _ _ _ hcur.1 h1 h2

theorem chain_length (m : MRS) (srcs : List RS) (h : wfChain m srcs) :
    ((chainBytes m srcs).length : Int) = m.size := by
  obtain ⟨hsz, hsum, hw⟩ := h
  unfold chainBytes
  rw [ranges_flatten_length srcs _ hw, ← hsz, ← hsum]

theorem srsRead_step (srcs : List RS) (s : SRS) (pLen : Nat)
    (h0s : 0 ≤ s.offset)
    (hpos : (srcs.getD s.src default).pos = s.offset)
    (hlt : s.offset < s.endPos)
    (hend : s.endPos ≤ ((srcs.getD s.src default).data.length : Int)) :
    srsRead srcs s pLen =
      ((extI (srcs.getD s.src default).data s.offset s.endPos).take pLen, false,
       { s with offset := s.offset + min (s.endPos - s.offset) (pLen : Int) },
       srcs.set s.src { data := (srcs.getD s.src default).data,
                        pos := s.offset + min (s.endPos - s.offset) (pLen : Int) }) := by
  have hdata : ¬ (((srcs.getD s.src default).data.length : Int) ≤ s.offset) := by omega
  have hlen : (((srcs.getD s.src default).data.drop s.offset.toNat).take
      (min (s.endPos - s.offset) (pLen : Int)).toNat).length =
      (min (s.endPos - s.offset) (pLen : Int)).toNat := by
    simp only [List.length_take, List.length_drop]
    omega
  simp only [srsRead, rsRead, if_neg (by omega : ¬ s.endPos ≤ s.offset), hpos,
    if_neg hdata]
  rw [extI_take]
  unfold sliceL
  rw [hlen]
  refine congrArg₂ Prod.mk ?_ (congrArg₂ Prod.mk rfl (congrArg₂ Prod.mk ?_ ?_))
  · congr 1
    omega
  · congr 1
    omega
  · congr 1
    congr 1
    omega

theorem getD_set_data (srcs : List RS) (j k : Nat) (r2 : RS)
    (hd : r2.data = (srcs.getD j default).data) :
    ((srcs.set j r2).getD k default).data = (srcs.getD k default).data := by
  by_cases hk : j = k
  · subst hk
    by_cases hj : j < srcs.length
    · rw [getD_set_self _ _ _ hj, hd]
    · rw [List.set_eq_of_length_le (by omega)]
  · rw [getD_set_ne _ _ _ _ hk]

theorem set_cursor_inv (m m4 : MRS) (srcs srcs4 : List RS) (k : Nat) (r : SRS) (p q : Int)
    (hk : k < m.readSeekers.length)
    (hr : m.readSeekers.getD k default = r)
    (hwf : wfChain m srcs)
    (hp1 : r.start ≤ p) (hp2 : p ≤ r.endPos)
    (hq : q = sumI ((m.readSeekers.take k).map (fun s => s.endPos - s.start)) + (p - r.start))
    (hm4 : m4 = { m with
      rsIdx := k, readSeekers := m.readSeekers.set k { r with offset := p }, overall := q })
    (hs4 : srcs4 = srcs.set r.src { data := (srcs.getD r.src default).data, pos := p }) :
    rInv m4 srcs4 ∧ chainBytes m4 srcs4 = chainBytes m srcs := by
  subst hm4
  subst hs4
  obtain ⟨hsz, hsum, hw⟩ := hwf
  have hrmem : r ∈ m.readSeekers := by
    rw [← hr, List.getD_eq_getElem _ default hk]
    exact List.getElem_mem hk
  have hrw := hw r hrmem
  have hmapsz : (m.readSeekers.set k { r with offset := p }).map
      (fun s => s.endPos - s.start) = m.readSeekers.map (fun s => s.endPos - s.start) := by
    apply map_set_congr
    · exact hk
    · rw [hr]
  have hrb : ∀ x : SRS, rangeBytes
      (srcs.set r.src { data := (srcs.getD r.src default).data, pos := p }) x =
      rangeBytes srcs x := by
    intro x
    unfold rangeBytes
    rw [getD_set_data srcs r.src x.src ({ data := (srcs.getD r.src default).data, pos := p } : RS) rfl]
  have hchain : chainBytes { m with
        rsIdx := k, readSeekers := m.readSeekers.set k { r with offset := p }, overall := q }
      (srcs.set r.src { data := (srcs.getD r.src default).data, pos := p }) =
      chainBytes m srcs := by
    unfold chainBytes
    dsimp only
    rw [List.map_congr_left (fun a _ => hrb a)]
    rw [map_set_congr _ _ _ _ hk (by rw [hr]; exact rfl)]
  refine ⟨⟨⟨?_, ?_, ?_⟩, ?_, ?_, ?_, ?_, ?_⟩, hchain⟩
  · dsimp only
    rw [hmapsz]
    exact hsz
  · exact hsum
  · intro s hs
    rcases List.mem_or_eq_of_mem_set hs with h | h
    · have hws := hw s h
      refine ⟨hws.1, hws.2.1, ?_, ?_⟩
      · rw [List.length_set]
        exact hws.2.2.1
      · rw [getD_set_data srcs r.src s.src ({ data := (srcs.getD r.src default).data, pos := p } : RS) rfl]
        exact hws.2.2.2
    · subst h
      refine ⟨hrw.1, hrw.2.1, ?_, ?_⟩
      · rw [List.length_set]
        exact hrw.2.2.1
      · rw [getD_set_data srcs r.src r.src ({ data := (srcs.getD r.src default).data, pos := p } : RS) rfl]
        exact hrw.2.2.2
  · dsimp only
    rw [List.length_set]
    exact hk
  · dsimp only
    rw [getD_set_self _ _ _ (by simpa using hk)]
    exact hp1
  · dsimp only
    rw [getD_set_self _ _ _ (by simpa using hk)]
    exact hp2
  · dsimp only
    rw [getD_set_self _ _ _ (by simpa using hk)]
    dsimp only
    rw [getD_set_self _ _ _ hrw.2.2.1]
  · dsimp only
    rw [getD_set_self _ _ _ (by simpa using hk)]
    dsimp only
    rw [take_set_ge _ _ _ _ (by omega)]
    exact hq

set_option maxHeartbeats 1000000 in
theorem mrsLoop_spec : ∀ (fuel : Nat) (m : MRS) (srcs : List RS) (pLen read : Nat)
    (acc : List Nat),
    rInv m srcs → read ≤ pLen →
    (pLen - read) + (m.readSeekers.length - m.rsIdx) < fuel →
    ∃ m2 srcs2,
      mrsLoop fuel m srcs pLen read acc =
        some (read + min (pLen - read) (m.size - m.overall).toNat,
              acc ++ ((chainBytes m srcs).drop m.overall.toNat).take (pLen - read),
              decide ((m.size - m.overall).toNat < pLen - read), m2, srcs2) ∧
      (pLen - read ≤ (m.size - m.overall).toNat →
        rInv m2 srcs2 ∧ m2.size = m.size ∧
        m2.readSeekers.length = m.readSeekers.length ∧
        m2.overall = m.overall + ((pLen - read : Nat) : Int) ∧
        chainBytes m2 srcs2 = chainBytes m srcs) := by
  intro fuel
  induction fuel with
  | zero =>
    intro m srcs pLen read acc hinv hle hfuel
    omega
  | succ fuel ih =>
    intro m srcs pLen read acc hinv hle hfuel
    obtain ⟨⟨hsz, hsum, hw⟩, hidx, hso, hoe, hsp, hov⟩ := hinv
    by_cases hrp : read = pLen
    · subst hrp
      refine ⟨m, srcs, ?_, ?_⟩
      · simp [mrsLoop, Nat.sub_self]
      · intro h
        exact ⟨⟨⟨hsz, hsum, hw⟩, hidx, hso, hoe, hsp, hov⟩, rfl, rfl, by simp, rfl⟩
    · have hrlt : read < pLen := by omega
      have hcurmem : m.readSeekers.getD m.rsIdx default ∈ m.readSeekers := by
        rw [List.getD_eq_getElem _ default hidx]
        exact List.getElem_mem hidx
      have hcw := hw _ hcurmem
      generalize hgc : m.readSeekers.getD m.rsIdx default = cur at hso hoe hsp hov hcw hcurmem
      have hrestpos : 0 ≤ sumI ((m.readSeekers.drop (m.rsIdx + 1)).map
          (fun s => s.endPos - s.start)) := by
        apply sumI_nonneg
        intro x hx
        simp only [List.mem_map] at hx
        obtain ⟨s, hs, rfl⟩ := hx
        have := hw s (List.mem_of_mem_drop hs)
        omega
      have hPpos : 0 ≤ sumI ((m.readSeekers.take m.rsIdx).map
          (fun s => s.endPos - s.start)) := by
        apply sumI_nonneg
        intro x hx
        simp only [List.mem_map] at hx
        obtain ⟨s, hs, rfl⟩ := hx
        have := hw s (List.mem_of_mem_take hs)
        omega
      have hsize : m.size =
          sumI ((m.readSeekers.take m.rsIdx).map (fun s => s.endPos - s.start)) +
            (cur.endPos - cur.start) +
            sumI ((m.readSeekers.drop (m.rsIdx + 1)).map (fun s => s.endPos - s.start)) := by
        rw [hsum, hsz]
        conv_lhs => rw [list_decomp m.readSeekers m.rsIdx hidx]
        rw [hgc, List.map_append, sumI_append, List.map_cons, sumI_cons]
        omega
      have hVlen : ((chainBytes m srcs).length : Int) = m.size :=
        chain_length m srcs ⟨hsz, hsum, hw⟩
      have hposov : 0 ≤ m.overall := by omega
      have hdrop : (chainBytes m srcs).drop m.overall.toNat =
          extI (srcs.getD cur.src default).data cur.offset cur.endPos ++
            ((m.readSeekers.drop (m.rsIdx + 1)).map (rangeBytes srcs)).flatten := by
        rw [chain_drop_suffix m srcs
          ⟨⟨hsz, hsum, hw⟩, hidx, by rw [hgc]; exact hso, by rw [hgc]; exact hoe,
            by rw [hgc]; exact hsp, by rw [hgc]; exact hov⟩]
        unfold suffixBytes
        rw [hgc]
      have hext : ((extI (srcs.getD cur.src default).data cur.offset cur.endPos).length : Int) =
          cur.endPos - cur.offset := by
        rw [extI_length _ _ _ (by omega) hcw.2.2.2]
        omega
      by_cases hcase : cur.offset < cur.endPos
      · -- the active range still has bytes: one read, then recurse
        have hstep := srsRead_step srcs cur (pLen - read) (by omega) hsp hcase hcw.2.2.2
        have hbslen : ((List.take (pLen - read)
            (extI (srcs.getD cur.src default).data cur.offset cur.endPos)).length : Int) =
            min (cur.endPos - cur.offset) ((pLen - read : Nat) : Int) := by
          simp only [List.length_take]
          omega
        simp only [mrsLoop, if_neg hrp, if_neg (by omega : ¬ m.readSeekers.length ≤ m.rsIdx)]
        rw [hgc, hstep]
        dsimp only
        rw [if_neg (by simp : ¬ false = true)]
        generalize hn : min (cur.endPos - cur.offset) ((pLen - read : Nat) : Int) = nI at hbslen ⊢
        generalize hbsg : List.take (pLen - read)
          (extI (srcs.getD cur.src default).data cur.offset cur.endPos) = bs at hbslen ⊢
        rw [hbslen]
        obtain ⟨hinv4, hchain4⟩ := set_cursor_inv m _ srcs _ m.rsIdx cur
          (cur.offset + nI) (m.overall + nI) hidx hgc ⟨hsz, hsum, hw⟩
          (by omega) (by omega) (by omega) rfl rfl
        obtain ⟨m2, srcs2, hrec, hcont⟩ := ih _ _ pLen (read + bs.length) (acc ++ bs)
          hinv4 (by omega) (by simp only [List.length_set]; omega)
        dsimp only at hrec hcont
        rw [hchain4] at hrec
        refine ⟨m2, srcs2, ?_, ?_⟩
        · rw [hrec]
          refine congrArg some ?_
          refine congrArg₂ Prod.mk (by omega)
            (congrArg₂ Prod.mk ?_ (congrArg₂ Prod.mk ?_ rfl))
          · rw [List.append_assoc]
            congr 1
            rw [show (m.overall + nI).toNat = m.overall.toNat + bs.length by omega]
            rw [show List.drop (m.overall.toNat + bs.length) (chainBytes m srcs) =
                (List.drop m.overall.toNat (chainBytes m srcs)).drop bs.length by
              rw [List.drop_drop]]
            rw [Nat.sub_add_eq]
            have hbs3 : bs = (List.drop m.overall.toNat (chainBytes m srcs)).take bs.length := by
              rw [hdrop, List.take_append_of_le_length (by omega)]
              conv_lhs => rw [← hbsg]
              apply (List.take_eq_take).mpr
              omega
            conv_rhs => rw [show pLen - read = bs.length + (pLen - read - bs.length) from by
              omega]
            rw [List.take_add]
            congr 1
          · refine (decide_eq_decide).mpr ?_
            omega
        · intro h
          obtain ⟨hi2, hs2, hl2, ho2, hc2⟩ := hcont (by omega)
          refine ⟨hi2, hs2, by simpa using hl2, ?_, hc2.trans hchain4⟩
          rw [ho2]
          omega
      · -- the active range is exhausted
        have hoffeq : cur.offset = cur.endPos := by omega
        have hstep2 : srsRead srcs cur (pLen - read) = ([], true, cur, srcs) := by
          unfold srsRead
          rw [if_pos (by omega)]
        simp only [mrsLoop, if_neg hrp, if_neg (by omega : ¬ m.readSeekers.length ≤ m.rsIdx)]
        rw [hgc, hstep2]
        dsimp only
        rw [if_pos rfl]
        have hsetself : m.readSeekers.set m.rsIdx cur = m.readSeekers := by
          rw [← hgc, List.getD_eq_getElem _ default hidx]
          exact set_self _ _ hidx
        rw [hsetself]
        simp only [List.length_nil, Nat.cast_zero, add_zero, Nat.add_zero, List.append_nil]
        by_cases hlast : m.rsIdx = m.readSeekers.length - 1
        · rw [if_pos hlast]
          have hdropnil : m.readSeekers.drop (m.rsIdx + 1) = [] := by
            apply List.drop_eq_nil_of_le
            omega
          have hrem0 : m.size - m.overall = 0 := by
            rw [hdropnil] at hsize
            simp only [List.map_nil, sumI_nil] at hsize
            omega
          have hVd : (chainBytes m srcs).drop m.overall.toNat = [] := by
            apply List.drop_eq_nil_of_le
            omega
          refine ⟨m, srcs, ?_, ?_⟩
          · refine congrArg some ?_
            refine congrArg₂ Prod.mk (by omega)
              (congrArg₂ Prod.mk ?_ (congrArg₂ Prod.mk ?_ rfl))
            · simp only [hVd, List.take_nil, List.append_nil]
            · exact (decide_eq_true (by omega :
                (m.size - m.overall).toNat < pLen - read)).symm
          · intro h
            exact absurd h (by omega)
        · rw [if_neg hlast]
          have hnx : m.rsIdx + 1 < m.readSeekers.length := by omega
          have hnmem : m.readSeekers.getD (m.rsIdx + 1) default ∈ m.readSeekers := by
            rw [List.getD_eq_getElem _ default hnx]
            exact List.getElem_mem hnx
          have hnw := hw _ hnmem
          generalize hgn : m.readSeekers.getD (m.rsIdx + 1) default = nxt at hnmem hnw ⊢
          have hseek : srsSeek srcs nxt 0 .start =
              (.ok (0 + nxt.start), { nxt with offset := 0 + nxt.start },
               srcs.set nxt.src { data := (srcs.getD nxt.src default).data,
                                  pos := 0 + nxt.start }) := by
            unfold srsSeek srsResolve rsSeek
            dsimp only
            rw [if_neg (by omega : ¬ 0 + nxt.start < nxt.start),
              if_neg (by omega : ¬ 0 + nxt.start < 0)]
          rw [hseek]
          dsimp only
          have hq2 : m.overall =
              sumI ((m.readSeekers.take (m.rsIdx + 1)).map (fun s => s.endPos - s.start)) +
                (0 + nxt.start - nxt.start) := by
            rw [← List.take_concat_get' m.readSeekers m.rsIdx hidx]
            rw [show m.readSeekers[m.rsIdx] = cur by
              rw [← List.getD_eq_getElem m.readSeekers default hidx, hgc]]
            rw [List.map_append, sumI_append, List.map_cons, List.map_nil, sumI_cons, sumI_nil]
            omega
          obtain ⟨hinv4, hchain4⟩ := set_cursor_inv m _ srcs _ (m.rsIdx + 1) nxt
            (0 + nxt.start) m.overall hnx hgn ⟨hsz, hsum, hw⟩
            (by omega) (by omega) hq2 rfl rfl
          obtain ⟨m2, srcs2, hrec, hcont⟩ := ih _ _ pLen read acc
            hinv4 (by omega) (by simp only [List.length_set]; omega)
          dsimp only at hrec hcont
          rw [hchain4] at hrec
          refine ⟨m2, srcs2, ?_, ?_⟩
          · rw [hrec]
          · intro h
            obtain ⟨hi2, hs2, hl2, ho2, hc2⟩ := hcont (by omega)
            exact ⟨hi2, hs2, by simpa using hl2, ho2, hc2.trans hchain4⟩

/-
Seek, drain and scan specifications for the amended C3 and C9.
-/


theorem seekFind_found : ∀ (sizes : List Int) (off total : Int) (i : Nat),
    (∀ s ∈ sizes, 0 ≤ s) → total ≤ off → off < total + sumI sizes →
    ∃ j rsOff, seekFind sizes off total i = some (i + j, rsOff) ∧
      j < sizes.length ∧
      rsOff = off - total - sumI (sizes.take j) ∧
      0 ≤ rsOff ∧ rsOff < sizes.getD j 0 := by
  intro sizes
  induction sizes with
  | nil =>
    intro off total i hpos hlo hhi
    rw [sumI_nil] at hhi
    omega
  | cons s rest ih =>
    intro off total i hpos hlo hhi
    have hs0 : 0 ≤ s := hpos s (by simp)
    by_cases hc : total ≤ off ∧ off < total + s
    · refine ⟨0, off - total, ?_, by simp, by simp [sumI_nil], by omega,
        by simp only [List.getD_cons_zero]; omega⟩
      unfold seekFind
      rw [if_pos hc, Nat.add_zero]
    · have hlo2 : total + s ≤ off := by omega
      rw [sumI_cons] at hhi
      obtain ⟨j, rsOff, heq, hj, hrs, h0r, hltr⟩ :=
        ih off (total + s) (i + 1) (fun x hx => hpos x (by simp [hx])) hlo2 (by omega)
      refine ⟨j + 1, rsOff, ?_, by simpa using hj, ?_, h0r, by simpa using hltr⟩
      · unfold seekFind
        rw [if_neg hc, heq]
        congr 2
        omega
      · rw [List.take_succ_cons, sumI_cons]
        omega

theorem seekFind_none : ∀ (sizes : List Int) (off total : Int) (i : Nat),
    (∀ s ∈ sizes, 0 ≤ s) → (off < total ∨ total + sumI sizes ≤ off) →
    seekFind sizes off total i = none := by
  intro sizes
  induction sizes with
  | nil => intros; rfl
  | cons s rest ih =>
    intro off total i hpos hcase
    have hs0 : 0 ≤ s := hpos s (by simp)
    have hrest0 : 0 ≤ sumI rest := sumI_nonneg rest (fun x hx => hpos x (by simp [hx]))
    rw [sumI_cons] at hcase
    unfold seekFind
    rw [if_neg (by omega : ¬ (total ≤ off ∧ off < total + s))]
    exact ih off (total + s) (i + 1) (fun x hx => hpos x (by simp [hx])) (by omega)

theorem srsSeek_start (srcs : List RS) (s : SRS) (off : Int)
    (h0 : 0 ≤ off) (hs : 0 ≤ s.start) :
    srsSeek srcs s off .start =
      (.ok (off + s.start), { s with offset := off + s.start },
       srcs.set s.src { data := (srcs.getD s.src default).data,
                        pos := off + s.start }) := by
  unfold srsSeek srsResolve rsSeek
  dsimp only
  rw [if_neg (by omega : ¬ off + s.start < s.start),
    if_neg (by omega : ¬ off + s.start < 0)]

theorem sizes_nonneg (m : MRS) (srcs : List RS) (hwf : wfChain m srcs) :
    ∀ x ∈ m.sizes, 0 ≤ x := by
  obtain ⟨hsz, hsum, hw⟩ := hwf
  intro x hx
  rw [hsz] at hx
  simp only [List.mem_map] at hx
  obtain ⟨s, hs, rfl⟩ := hx
  have := hw s hs
  omega

theorem mrsSeek_ok (m : MRS) (srcs : List RS) (off : Int)
    (hwf : wfChain m srcs) (h0 : 0 ≤ off) (hlt : off < m.size) :
    ∃ m2 srcs2, mrsSeek m srcs off .start = (.ok off, m2, srcs2) ∧
      rInv m2 srcs2 ∧ m2.size = m.size ∧ m2.sizes = m.sizes ∧ m2.overall = off ∧
      m2.readSeekers.length = m.readSeekers.length ∧
      (∀ i, i ≠ m2.rsIdx →
        m2.readSeekers.getD i default = m.readSeekers.getD i default) ∧
      chainBytes m2 srcs2 = chainBytes m srcs := by
  obtain ⟨hsz, hsum, hw⟩ := hwf
  obtain ⟨j, rsOff, heq, hj, hrs, h0r, hltr⟩ :=
    seekFind_found m.sizes off 0 0 (sizes_nonneg m srcs ⟨hsz, hsum, hw⟩)
      h0 (by omega)
  rw [Nat.zero_add] at heq
  have hjr : j < m.readSeekers.length := by
    rw [hsz, List.length_map] at hj
    exact hj
  have hsmem : m.readSeekers.getD j default ∈ m.readSeekers := by
    rw [List.getD_eq_getElem _ default hjr]
    exact List.getElem_mem hjr
  generalize hgs : m.readSeekers.getD j default = s at hsmem
  have hsw := hw s hsmem
  have hsize_j : m.sizes.getD j 0 = s.endPos - s.start := by
    rw [hsz, List.getD_eq_getElem _ _ (by simpa using hjr), List.getElem_map,
      ← List.getD_eq_getElem m.readSeekers default hjr, hgs]
  have htake_j : sumI (m.sizes.take j) =
      sumI ((m.readSeekers.take j).map (fun s => s.endPos - s.start)) := by
    rw [hsz, List.map_take]
  obtain ⟨hinv4, hchain4⟩ := set_cursor_inv m _ srcs _ j s (rsOff + s.start) off
    hjr hgs ⟨hsz, hsum, hw⟩ (by omega) (by omega) (by omega) rfl rfl
  refine ⟨_, _, ?_, hinv4, rfl, rfl, rfl, by simp, ?_, hchain4⟩
  · unfold mrsSeek mrsResolve
    dsimp only
    rw [heq]
    dsimp only
    rw [hgs, srsSeek_start srcs s rsOff h0r (by omega)]
  · intro i hi
    dsimp only at hi ⊢
    rw [getD_set_ne _ _ _ _ (by omega)]

theorem rInv_bounds (m : MRS) (srcs : List RS) (hinv : rInv m srcs) :
    0 ≤ m.overall ∧ m.overall ≤ m.size := by
  obtain ⟨⟨hsz, hsum, hw⟩, hidx, hso, hoe, hsp, hov⟩ := hinv
  have hcurmem : m.readSeekers.getD m.rsIdx default ∈ m.readSeekers := by
    rw [List.getD_eq_getElem _ default hidx]
    exact List.getElem_mem hidx
  have hcw := hw _ hcurmem
  generalize hgc : m.readSeekers.getD m.rsIdx default = cur at hso hoe hov hcw hcurmem
  have hrestpos : 0 ≤ sumI ((m.readSeekers.drop (m.rsIdx + 1)).map
      (fun s => s.endPos - s.start)) := by
    apply sumI_nonneg
    intro x hx
    simp only [List.mem_map] at hx
    obtain ⟨s, hs, rfl⟩ := hx
    have := hw s (List.mem_of_mem_drop hs)
    omega
  have hPpos : 0 ≤ sumI ((m.readSeekers.take m.rsIdx).map
      (fun s => s.endPos - s.start)) := by
    apply sumI_nonneg
    intro x hx
    simp only [List.mem_map] at hx
    obtain ⟨s, hs, rfl⟩ := hx
    have := hw s (List.mem_of_mem_take hs)
    omega
  have hsize : m.size =
      sumI ((m.readSeekers.take m.rsIdx).map (fun s => s.endPos - s.start)) +
        (cur.endPos - cur.start) +
        sumI ((m.readSeekers.drop (m.rsIdx + 1)).map (fun s => s.endPos - s.start)) := by
    rw [hsum, hsz]
    conv_lhs => rw [list_decomp m.readSeekers m.rsIdx hidx]
    rw [hgc, List.map_append, sumI_append, List.map_cons, sumI_cons]
    omega
  omega

theorem drainLoop_spec : ∀ (fuel : Nat) (m : MRS) (srcs : List RS) (acc : List Nat),
    rInv m srcs → (m.size - m.overall).toNat < fuel →
    drainLoop fuel m srcs acc =
      some (acc ++ (chainBytes m srcs).drop m.overall.toNat) := by
  intro fuel
  induction fuel with
  | zero =>
    intro m srcs acc hinv hf
    omega
  | succ fuel ih =>
    intro m srcs acc hinv hf
    obtain ⟨hov0, hovs⟩ := rInv_bounds m srcs hinv
    have hVlen : ((chainBytes m srcs).length : Int) = m.size :=
      chain_length m srcs hinv.1
    obtain ⟨m2, srcs2, hrec, hcont⟩ :=
      mrsLoop_spec ((64 + 1) * (m.readSeekers.length + 1) + 1) m srcs 64 0 []
        hinv (by omega) (by omega)
    unfold drainLoop mrsRead
    rw [hrec]
    dsimp only
    by_cases heof : (m.size - m.overall).toNat < 64 - 0
    · rw [decide_eq_true heof, if_pos rfl]
      refine congrArg some ?_
      rw [List.nil_append, List.take_of_length_le
        (by rw [List.length_drop]; omega)]
    · rw [decide_eq_false heof, if_neg (by simp : ¬ false = true)]
      obtain ⟨hi2, hs2, hl2, ho2, hc2⟩ := hcont (by omega)
      rw [ih m2 srcs2 _ hi2 (by rw [hs2, ho2]; omega)]
      refine congrArg some ?_
      rw [hc2, ho2]
      rw [List.nil_append, List.append_assoc]
      congr 1
      rw [show (m.overall + ((64 : Nat) : Int)).toNat = m.overall.toNat + 64 by omega,
        Nat.sub_zero]
      rw [show List.drop (m.overall.toNat + 64) (chainBytes m srcs) =
          (List.drop m.overall.toNat (chainBytes m srcs)).drop 64 by rw [List.drop_drop]]
      exact List.take_append_drop 64 _

theorem mrsDrain_spec (m : MRS) (srcs : List RS) (hinv : rInv m srcs) :
    mrsDrain m srcs = some ((chainBytes m srcs).drop m.overall.toNat) := by
  obtain ⟨hov0, hovs⟩ := rInv_bounds m srcs hinv
  unfold mrsDrain
  rw [drainLoop_spec _ m srcs [] hinv (by omega), List.nil_append]

/-- C3 amended: a Seek with whence start whose offset lies in [0, totalSize)
succeeds and returns that offset, and draining from there yields exactly
totalSize - offset bytes (the suffix of the chain's bytes); a seek to an
offset below 0 or at/above totalSize fails with the out-of-bounds error,
so seeking to exactly totalSize fails. -/
theorem c3_seek_in_bounds_then_drain (m : MRS) (srcs : List RS)
    (hwf : wfChain m srcs) :
    (∀ off : Int, 0 ≤ off → off < m.size →
      ∃ m2 srcs2, mrsSeek m srcs off .start = (.ok off, m2, srcs2) ∧
        ∃ out, mrsDrain m2 srcs2 = some out ∧
          out = (chainBytes m srcs).drop off.toNat ∧
          (out.length : Int) = m.size - off) ∧
    (∀ off : Int, off < 0 ∨ m.size ≤ off →
      mrsSeek m srcs off .start = (.error .outOfBounds, m, srcs)) := by
  constructor
  · intro off h0 hlt
    obtain ⟨m2, srcs2, hs, hinv2, hsz2, _, hov2, _, _, hch2⟩ :=
      mrsSeek_ok m srcs off hwf h0 hlt
    refine ⟨m2, srcs2, hs, _, mrsDrain_spec m2 srcs2 hinv2, ?_, ?_⟩
    · rw [hch2, hov2]
    · have hVlen : ((chainBytes m2 srcs2).length : Int) = m2.size :=
        chain_length m2 srcs2 hinv2.1
      rw [hch2] at hVlen
      rw [hch2, hov2, List.length_drop]
      rw [hsz2] at hVlen
      omega
  · intro off hcase
    have hnone : seekFind m.sizes off 0 0 = none := by
      apply seekFind_none m.sizes off 0 0 (sizes_nonneg m srcs hwf)
      have : sumI m.sizes = m.size := hwf.2.1.symm
      omega
    unfold mrsSeek mrsResolve
    dsimp only
    rw [hnone]

/-- C3 witness: on the concrete two-range chain (total size 16), seeking
to 6 succeeds and draining yields the 10 remaining bytes, while seeking
to 20 fails out of bounds. -/
theorem c3_seek_in_bounds_then_drain_witness :
    wfChain twoChain.1 twoChain.2 ∧
    (∃ m2 srcs2, mrsSeek twoChain.1 twoChain.2 6 .start = (.ok 6, m2, srcs2) ∧
       ∃ out, mrsDrain m2 srcs2 = some out ∧
         out = (chainBytes twoChain.1 twoChain.2).drop (6 : Int).toNat ∧
         (out.length : Int) = twoChain.1.size - 6) ∧
    mrsSeek twoChain.1 twoChain.2 20 .start =
      (.error .outOfBounds, twoChain.1, twoChain.2) :=
  ⟨by unfold wfChain; decide,
   (c3_seek_in_bounds_then_drain twoChain.1 twoChain.2 (by unfold wfChain; decide)).1 6
     (by decide) (by decide),
   (c3_seek_in_bounds_then_drain twoChain.1 twoChain.2 (by unfold wfChain; decide)).2 20
     (by decide)⟩


theorem scanLoop_spec : ∀ (fuel : Nat) (d : List Nat) (rds : List SRS)
    (pos : Int) (kept : Bool) (n0 : Nat),
    0 ≤ pos →
    tiles fuel d pos = true →
    n0 ≤ rds.length →
    (kept = true → n0 < rds.length) →
    (∀ i, n0 ≤ i → i < rds.length →
      0 ≤ (rds.getD i default).start ∧
      (rds.getD i default).start ≤ (rds.getD i default).endPos ∧
      (rds.getD i default).endPos ≤ pos ∧
      (rds.getD i default).src = 0) →
    ∃ rds2 : List SRS,
      scanLoop fuel { data := d, pos := pos } rds pos kept =
        some (.ok (rds2, (d.length : Int), { data := d, pos := (d.length : Int) })) ∧
      rds2.take n0 = rds.take n0 ∧
      rds.length ≤ rds2.length ∧
      (anyRetained fuel d pos = true → n0 < rds2.length) ∧
      (∀ i, n0 ≤ i → i < rds2.length →
        0 ≤ (rds2.getD i default).start ∧
        (rds2.getD i default).start ≤ (rds2.getD i default).endPos ∧
        (rds2.getD i default).endPos ≤ (d.length : Int) ∧
        (rds2.getD i default).src = 0) := by
  intro fuel
  induction fuel with
  | zero =>
    intro d rds pos kept n0 h0 htiles hn0 hkept hP
    exact absurd htiles (by simp [tiles])
  | succ fuel ih =>
    intro d rds pos kept n0 h0 htiles hn0 hkept hP
    simp only [tiles] at htiles
    by_cases heq : pos = (d.length : Int)
    · subst heq
      have hr : rsRead { data := d, pos := (d.length : Int) } 8 =
          ([], true, { data := d, pos := (d.length : Int) }) := by
        unfold rsRead
        dsimp only
        rw [if_pos (by omega)]
      refine ⟨rds, ?_, rfl, le_refl _, ?_, hP⟩
      · unfold scanLoop
        rw [hr]
        dsimp only
        rw [if_pos rfl]
      · intro h
        rw [anyRetained, if_pos rfl] at h
        exact absurd h (by simp)
    · rw [if_neg heq] at htiles
      have hcond : pos + 8 ≤ (d.length : Int) ∧ 0 ≤ pos := by
        by_contra hc
        rw [if_neg hc] at htiles
        exact absurd htiles (by simp)
      rw [if_pos hcond] at htiles
      have hlen8 : ((d.drop pos.toNat).take 8).length = 8 := by
        simp only [List.length_take, List.length_drop]
        omega
      have hr : rsRead { data := d, pos := pos } 8 =
          ((d.drop pos.toNat).take 8, false, { data := d, pos := pos + 8 }) := by
        unfold rsRead
        dsimp only
        rw [if_neg (by omega)]
        rw [hlen8, Nat.cast_ofNat]
      have htk : ((d.drop pos.toNat).take 8).take 4 = (d.drop pos.toNat).take 4 := by
        rw [List.take_take]
        norm_num
      have hbe : (0 : Int) ≤ (be32val ((d.drop pos.toNat).take 4) : Int) := by
        exact_mod_cast Nat.zero_le _
      unfold scanLoop
      rw [hr]
      try dsimp only
      rw [if_neg (by simp : ¬ false = true), if_neg (by rw [hlen8]; omega), htk]
      rw [if_neg (by omega : ¬ pos + 8 + ((be32val ((d.drop pos.toNat).take 4) : Int) + 4) < 0)]
      generalize hbv : (be32val ((d.drop pos.toNat).take 4) : Int) = bv at hbe htiles ⊢
      generalize hpos2 : pos + 8 + (bv + 4) = pos2 at htiles ⊢
      generalize hchunk : ((d.drop pos.toNat).take 8).drop 4 = chunk
      have haru : anyRetained (fuel + 1) d pos =
          (retain chunk || anyRetained fuel d pos2) := by
        rw [anyRetained.eq_def]
        dsimp only
        rw [if_neg heq, if_pos hcond, hchunk, hbv, hpos2]
      have hpl : pos < pos2 := by omega
      by_cases hret : retain chunk = true
      · rw [if_neg (by simp [hret] : ¬ ¬ retain chunk = true), hret]
        by_cases hk : kept = true
        · rw [if_pos hk]
          have hkL := hkept hk
          obtain ⟨rds2, e1, e2, e3, e4, e5⟩ :=
            ih d (rds.set (rds.length - 1)
              { rds.getD (rds.length - 1) default with endPos := pos }) pos2 true n0
              (by omega) htiles (by simp only [List.length_set]; omega)
              (fun _ => by simp only [List.length_set]; omega)
              (by
                intro i hi1 hi2
                rw [List.length_set] at hi2
                by_cases hiL : i = rds.length - 1
                · subst hiL
                  rw [getD_set_self _ _ _ (by omega)]
                  have hold := hP (rds.length - 1) (by omega) (by omega)
                  dsimp only
                  exact ⟨hold.1, by omega, by omega, hold.2.2.2⟩
                · rw [getD_set_ne _ _ _ _ (fun hc => hiL hc.symm)]
                  have hold := hP i hi1 hi2
                  exact ⟨hold.1, hold.2.1, by omega, hold.2.2.2⟩)
          refine ⟨rds2, e1, ?_, ?_, ?_, e5⟩
          · rw [e2, take_set_ge _ _ _ _ (by omega)]
          · rw [List.length_set] at e3
            exact e3
          · intro _
            rw [List.length_set] at e3
            omega
        · rw [if_neg hk]
          obtain ⟨rds2, e1, e2, e3, e4, e5⟩ :=
            ih d (rds ++ [{
                name := "chunk", src := 0, start := pos,
                endPos := pos + (bv + 4), offset := 0 }]) pos2 true n0
              (by omega) htiles (by simp; omega) (fun _ => by simp; omega)
              (by
                intro i hi1 hi2
                simp only [List.length_append, List.length_singleton] at hi2
                by_cases hiL : i < rds.length
                · rw [List.getD_append _ _ _ _ hiL]
                  have hold := hP i hi1 hiL
                  exact ⟨hold.1, hold.2.1, by omega, hold.2.2.2⟩
                · have hieq : i = rds.length := by omega
                  subst hieq
                  rw [List.getD_append_right _ _ _ _ (le_refl _), Nat.sub_self,
                    List.getD_cons_zero]
                  dsimp only
                  exact ⟨by omega, by omega, by omega, rfl⟩)
          refine ⟨rds2, e1, ?_, ?_, ?_, e5⟩
          · rw [e2, List.take_append_of_le_length hn0]
          · simp only [List.length_append, List.length_singleton] at e3
            omega
          · intro _
            simp only [List.length_append, List.length_singleton] at e3
            omega
      · have hrf : retain chunk = false := by
          cases hre : retain chunk
          · rfl
          · exact absurd hre hret
        rw [if_pos hret, hrf]
        obtain ⟨rds2, e1, e2, e3, e4, e5⟩ :=
          ih d rds pos2 false n0 (by omega) htiles hn0
            (fun h => absurd h (by simp))
            (by
              intro i hi1 hi2
              have hold := hP i hi1 hi2
              exact ⟨hold.1, hold.2.1, by omega, hold.2.2.2⟩)
        refine ⟨rds2, e1, e2, e3, ?_, e5⟩
        intro h
        rw [haru, hrf, Bool.false_or] at h
        exact e4 h


theorem assertBody_data (r : RS) (fs : List Bool) :
    (assertBody r fs).2.data = r.data := by
  unfold assertBody
  split
  · rfl
  split
  · rfl
  split
  rename_i b1 eof1 r2 heq
  have hr2 : r2.data = r.data := by
    have h := rsRead_data { data := r.data, pos := 0 } 16
    rw [heq] at h
    exact h
  split
  · exact hr2
  dsimp only
  split
  · exact hr2
  split
  · exact hr2
  split
  · exact hr2
  rcases hq : rsRead { data := r2.data, pos := (r2.data.length : Int) - 12 } 16 with ⟨b2, e2, r4⟩
  have hr4 : r4.data = r2.data := by
    have h := rsRead_data { data := r2.data, pos := (r2.data.length : Int) - 12 } 16
    rw [hq] at h
    exact h
  dsimp only
  split
  · exact hr4.trans hr2
  · exact hr4.trans hr2

theorem anyRetained_bound (fuel : Nat) (d : List Nat) (pos : Int)
    (h : anyRetained fuel d pos = true) : pos + 8 ≤ (d.length : Int) ∧ 0 ≤ pos := by
  cases fuel with
  | zero => exact absurd h (by simp [anyRetained])
  | succ fuel =>
    simp only [anyRetained] at h
    by_cases heq : pos = (d.length : Int)
    · rw [if_pos heq] at h
      exact absurd h (by simp)
    · rw [if_neg heq] at h
      by_cases hc : pos + 8 ≤ (d.length : Int) ∧ 0 ≤ pos
      · exact hc
      · rw [if_neg hc] at h
        exact absurd h (by simp)

theorem take2_decomp {α : Type} (L : List α) (x y : α) (h : L.take 2 = [x, y]) :
    ∃ rest, L = x :: y :: rest := by
  rcases L with _ | ⟨a, _ | ⟨b, rest⟩⟩
  · simp at h
  · simp at h
  · simp at h
    exact ⟨rest, by rw [h.1, h.2]⟩

theorem forall_mem_of_getD {α : Type} [Inhabited α] (L : List α) (P : α → Prop)
    (h : ∀ i, i < L.length → P (L.getD i default)) : ∀ s ∈ L, P s := by
  intro s hs
  obtain ⟨i, hi, hEq⟩ := List.mem_iff_getElem.mp hs
  rw [← hEq, ← List.getD_eq_getElem L default hi]
  exact h i hi

theorem rsIdx_zero_of_overall_zero (m : MRS) (srcs : List RS) (hinv : rInv m srcs)
    (hov : m.overall = 0) (h0 : 0 < m.sizes.getD 0 0) : m.rsIdx = 0 := by
  obtain ⟨⟨hsz, hsum, hw⟩, hidx, hso, hoe, hsp, hov2⟩ := hinv
  by_contra hne
  obtain ⟨k, hk⟩ : ∃ k, m.rsIdx = k + 1 := ⟨m.rsIdx - 1, by omega⟩
  rcases hrds : m.readSeekers with _ | ⟨r0, rtl⟩
  · rw [hrds] at hidx
    simp at hidx
  · have hg0 : m.sizes.getD 0 0 = r0.endPos - r0.start := by
      rw [hsz, hrds]
      rfl
    have htl : 0 ≤ sumI ((rtl.take k).map (fun s => s.endPos - s.start)) := by
      apply sumI_nonneg
      intro x hx
      simp only [List.mem_map] at hx
      obtain ⟨s, hs, rfl⟩ := hx
      have hmem : s ∈ m.readSeekers := by
        rw [hrds]
        exact List.mem_cons_of_mem r0 (List.mem_of_mem_take hs)
      have := hw s hmem
      omega
    rw [hk, hrds, List.take_succ_cons, List.map_cons, sumI_cons] at hov2
    rw [hrds, hk] at hso
    omega

/-- C9 amended: with an empty metadata mapping and a source whose region
after the IHDR chunk tiles into chunks at least one of which is retained,
ReplaceMeta succeeds and yields a chain whose second constituent is the
zero-length synthetic metadata range; draining the chain succeeds, and the
output decomposes into the header range's bytes followed by the chunk
ranges' bytes, the metadata range contributing nothing. -/
theorem c9_empty_metadata_zero_range (d : List Nat)
    (hassert : (assertGo { data := d, pos := 0 } []).1 = .ok ())
    (ht : tiles (d.length + 2) d ihdrEnd = true)
    (ha : anyRetained (d.length + 2) d ihdrEnd = true) :
    ∃ m srcs2, replaceMeta { data := d, pos := 0 } [] = .ok (m, srcs2) ∧
      2 < m.readSeekers.length ∧
      m.readSeekers.getD 1 default = metaSRS 0 ∧
      rangeBytes srcs2 (metaSRS 0) = [] ∧
      mrsDrain m srcs2 =
        some (rangeBytes srcs2 (m.readSeekers.getD 0 default) ++
          ((m.readSeekers.drop 2).map (rangeBytes srcs2)).flatten) := by
  obtain ⟨hb8, hb0⟩ := anyRetained_bound (d.length + 2) d ihdrEnd ha
  have hie : ihdrEnd = (33 : Int) := rfl
  -- the Assert stage succeeds and restores the zero position
  have hgo : assertGo { data := d, pos := 0 } [] =
      ((assertBody { data := d, pos := 0 } []).1.mapError AErr.body,
       { data := (assertBody { data := d, pos := 0 } []).2.data, pos := 0 }) := by
    unfold assertGo
    dsimp only
    rw [if_neg (by decide), if_neg (by decide)]
  have hokB : (assertBody { data := d, pos := 0 } []).1 = .ok () := by
    rcases hEx : (assertBody { data := d, pos := 0 } []).1 with e | u
    · rw [hgo] at hassert
      dsimp only at hassert
      rw [hEx] at hassert
      exact absurd hassert (by simp [Except.mapError])
    · cases u
      rfl
  have hpair : assertGo { data := d, pos := 0 } [] =
      (.ok (), { data := d, pos := 0 }) := by
    rw [hgo, hokB, assertBody_data]
    rfl
  have hblob : encodeMeta ([] : Metadata) = [] := rfl
  -- the scan
  obtain ⟨rds2, e1, e2, e3, e4, e5⟩ :=
    scanLoop_spec (d.length + 2) d [hdrSRS, metaSRS 0] ihdrEnd false 2
      (by omega) ht (by simp)
      (fun h => absurd h (by simp))
      (by intro i hi1 hi2; simp at hi2; omega)
  have hl2 : 2 < rds2.length := e4 ha
  have htk2 : rds2.take 2 = [hdrSRS, metaSRS 0] := by
    rw [e2]
    rfl
  -- the post-fixup reader list
  set rds3 : List SRS := rds2.set (rds2.length - 1) { name := (rds2.getD (rds2.length - 1) default).name, src := (rds2.getD (rds2.length - 1) default).src, start := (rds2.getD (rds2.length - 1) default).start, endPos := (d.length : Int), offset := (rds2.getD (rds2.length - 1) default).offset } with hrds3
  have hlen3 : rds3.length = rds2.length := by
    rw [hrds3, List.length_set]
  have htk3 : rds3.take 2 = [hdrSRS, metaSRS 0] := by
    rw [hrds3, take_set_ge _ _ _ _ (by omega), htk2]
  obtain ⟨rest, hdecomp⟩ := take2_decomp rds3 hdrSRS (metaSRS 0) htk3
  have he5' : ∀ i, 2 ≤ i → i < rds3.length →
      0 ≤ (rds3.getD i default).start ∧
      (rds3.getD i default).start ≤ (rds3.getD i default).endPos ∧
      (rds3.getD i default).endPos ≤ (d.length : Int) ∧
      (rds3.getD i default).src = 0 := by
    intro i hi2 hilt
    rw [hlen3] at hilt
    rw [hrds3]
    by_cases hil : i = rds2.length - 1
    · subst hil
      rw [getD_set_self _ _ _ (by omega)]
      have hold := e5 (rds2.length - 1) (by omega) (by omega)
      dsimp only
      exact ⟨hold.1, by omega, by omega, hold.2.2.2⟩
    · rw [getD_set_ne _ _ _ _ (fun hc => hil hc.symm)]
      exact e5 i hi2 hilt
  -- well-formedness of the fresh chain over the two sources
  have hw3 : ∀ s ∈ rds3, 0 ≤ s.start ∧ s.start ≤ s.endPos ∧
      s.src < ([{ data := d, pos := (d.length : Int) },
        { data := ([] : List Nat), pos := 0 }] : List RS).length ∧
      s.endPos ≤ ((([{ data := d, pos := (d.length : Int) },
        { data := ([] : List Nat), pos := 0 }] : List RS).getD s.src
          default).data.length : Int) := by
    apply forall_mem_of_getD
    intro i hilt
    match i, hilt with
    | 0, hilt =>
      rw [hdecomp]
      simp only [List.getD_cons_zero]
      refine ⟨by decide, by decide, by simp [hdrSRS], ?_⟩
      have hsrc : hdrSRS.src = 0 := rfl
      have hend : hdrSRS.endPos = ihdrEnd := rfl
      rw [hsrc, hend, List.getD_cons_zero]
      show ihdrEnd ≤ (d.length : Int)
      omega
    | 1, hilt =>
      rw [hdecomp]
      simp only [List.getD_cons_succ, List.getD_cons_zero]
      exact ⟨by decide, by decide, by simp [metaSRS], by simp [metaSRS]⟩
    | (j + 2), hilt =>
      have h := he5' (j + 2) (by omega) hilt
      refine ⟨h.1, h.2.1, ?_, ?_⟩
      · rw [h.2.2.2]
        simp
      · rw [h.2.2.2]
        simp only [List.getD_cons_zero]
        exact h.2.2.1
  -- the total size is positive
  have hrestpos : 0 ≤ sumI (rest.map (fun s => s.endPos - s.start)) := by
    apply sumI_nonneg
    intro x hx
    simp only [List.mem_map] at hx
    obtain ⟨s, hs, rfl⟩ := hx
    have hmem : s ∈ rds3 := by
      rw [hdecomp]
      exact List.mem_cons_of_mem _ (List.mem_cons_of_mem _ hs)
    have := hw3 s hmem
    omega
  have hpos_size : (0 : Int) < sumI (rds3.map (fun s => s.endPos - s.start)) := by
    rw [hdecomp, List.map_cons, List.map_cons, sumI_cons, sumI_cons]
    have h1 : hdrSRS.endPos - hdrSRS.start = 33 := by decide
    have h2 : (metaSRS 0).endPos - (metaSRS 0).start = 0 := by decide
    omega
  -- the constructor chain and its opening seek
  set m0 : MRS := { overall := 0, rsIdx := 0, readSeekers := rds3, sizes := rds3.map (fun s => s.endPos - s.start), size := (rds3.map (fun s => s.endPos - s.start)).foldl (fun a b => a + b) 0 } with hm0
  have hwf0 : wfChain m0 [{ data := d, pos := (d.length : Int) },
      { data := ([] : List Nat), pos := 0 }] := ⟨rfl, rfl, hw3⟩
  have hsize0 : (0 : Int) < m0.size := by
    have h : m0.size = sumI (rds3.map (fun s => s.endPos - s.start)) := rfl
    rw [h]
    exact hpos_size
  obtain ⟨m, srcs2, hseq, hinv, hszp, hsizesp, hovp, hlenp, hpresp, hchp⟩ :=
    mrsSeek_ok m0 [{ data := d, pos := (d.length : Int) },
      { data := ([] : List Nat), pos := 0 }] 0 hwf0 (le_refl 0) hsize0
  have hnew : newMultiReadSeeker rds3 [{ data := d, pos := (d.length : Int) },
      { data := ([] : List Nat), pos := 0 }] = .ok (m, srcs2) := by
    unfold newMultiReadSeeker
    dsimp only
    rw [← hm0, hseq]
  -- index 0 is the active range after the zero seek
  have hrs0 : m.rsIdx = 0 := by
    apply rsIdx_zero_of_overall_zero m srcs2 hinv hovp
    rw [hsizesp]
    have h : m0.sizes = rds3.map (fun s => s.endPos - s.start) := rfl
    rw [h, hdecomp, List.map_cons, List.getD_cons_zero]
    decide
  have hgd1 : m.readSeekers.getD 1 default = metaSRS 0 := by
    rw [hpresp 1 (by omega)]
    have h : m0.readSeekers = rds3 := rfl
    rw [h, hdecomp]
    rfl
  have hrb : rangeBytes srcs2 (metaSRS 0) = [] := by
    rfl
  refine ⟨m, srcs2, ?_, ?_, hgd1, hrb, ?_⟩
  · -- the computation of ReplaceMeta
    unfold replaceMeta
    rw [hpair]
    dsimp only
    rw [hblob]
    simp only [List.length_nil, Nat.cast_zero]
    rw [e1]
    dsimp only
    rw [← hrds3, hnew]
  · rw [hlenp]
    have h : m0.readSeekers = rds3 := rfl
    rw [h, hlen3]
    exact hl2
  · rw [mrsDrain_spec m srcs2 hinv, hovp]
    refine congrArg some ?_
    have hz : ((0 : Int)).toNat = 0 := rfl
    rw [hz, List.drop_zero]
    have hlen : 2 < m.readSeekers.length := by
      rw [hlenp]
      have h : m0.readSeekers = rds3 := rfl
      rw [h, hlen3]
      exact hl2
    rcases hm : m.readSeekers with _ | ⟨a, _ | ⟨b, t⟩⟩
    · rw [hm] at hlen
      simp at hlen
    · rw [hm] at hlen
      simp at hlen
    · have hb : b = metaSRS 0 := by
        rw [hm] at hgd1
        simpa using hgd1
      subst hb
      have hch : chainBytes m srcs2 = (m.readSeekers.map (rangeBytes srcs2)).flatten := rfl
      rw [hch, hm]
      simp only [List.map_cons, List.flatten_cons, List.getD_cons_zero, hrb,
        List.nil_append]
      rfl

/-- C9 witness: on the concrete 85-byte PNG cFile (whose post-IHDR region
tiles into an IDAT, a tEXt and an IEND chunk) with empty metadata, the
returned chain has the zero-length metadata range as its second
constituent and drains without error to header-range bytes followed by
chunk-range bytes. -/
theorem c9_empty_metadata_zero_range_witness :
    ∃ m srcs2, replaceMeta { data := cFile, pos := 0 } [] = .ok (m, srcs2) ∧
      2 < m.readSeekers.length ∧
      m.readSeekers.getD 1 default = metaSRS 0 ∧
      rangeBytes srcs2 (metaSRS 0) = [] ∧
      mrsDrain m srcs2 =
        some (rangeBytes srcs2 (m.readSeekers.getD 0 default) ++
          ((m.readSeekers.drop 2).map (rangeBytes srcs2)).flatten) :=
  c9_empty_metadata_zero_range cFile (by decide) (by decide) (by decide)

end Pngutil
